import Mathlib

/-!
# Verification of the `dscale` discrete-event network simulator core

Shallow embedding of the core of the `kshprenger/matrix` repository
(crate `src/dscale`): the virtual clock, the unique-id source (TSO),
the latency queue, the bandwidth queue, the timer manager, the
execution context and the scheduler loop.

Machine integers (`usize`) are modelled as `Nat`; the simulator's
arithmetic stays far from `2^64` in every scenario the theorems touch,
and Rust would panic on overflow in debug builds rather than wrap.
`Jiffies` is a transparent wrapper around `usize` and is modelled as
`Nat` directly.

The message priority queues of the source are
`std::collections::BinaryHeap<Reverse<RoutedMessage>>`
(`src/dscale/src/message.rs`, `TimePriorityMessageQueue`).  We embed
Rust's `BinaryHeap` faithfully, including its exact `sift_up` and
`sift_down_to_bottom` routines, because the pop order among messages
with equal arrival times is decided by those routines (the spec's tie
break discussion depends on it).  Rust's hole-based sifting is
observationally identical to the swap-based formulation used here: the
hole always carries the element being sifted, and `Hole::move_to`
writes the overwritten slot's value into the slot the element left.
-/

namespace DScale

/-! ## Rust `std::collections::BinaryHeap`

A max-heap over the stored element order, stored in a growable array
(`Vec`), modelled as a `List`.  The comparator `le` is the `Ord::le`
of the stored element type (for the simulator's queues the stored type
is `Reverse<RoutedMessage>`, so `le` inverts the arrival-time order).
-/

/-- Swap two in-range positions of a list; out-of-range indices leave
the list unchanged (Rust would panic there, and no call site of the
model reaches that case). -/
def listSwap {α : Type} (l : List α) (i j : Nat) : List α :=
  match l[i]?, l[j]? with
  | some a, some b => (l.set i b).set j a
  | _, _ => l

/-- Index of the parent slot in the implicit binary tree of the heap
array: the source's `let parent = (pos - 1) / 2`. -/
def parentIdx (j : Nat) : Nat := (j - 1) / 2

/-- The loop body of Rust `BinaryHeap::sift_up(start, pos)`: bubble
the element at `pos` towards the root while it is strictly greater
than its parent, never moving above index `start`.  The hole position
strictly decreases at each iteration, so a fuel of `pos` always
suffices; the fuel-exhausted branch coincides with the loop's own exit
(`pos = 0` forces `¬ start < pos`). -/
def siftUpAux {α : Type} [Inhabited α] (le : α → α → Bool) :
    Nat → List α → Nat → Nat → List α
  | 0, l, _, _ => l
  | fuel + 1, l, start, pos =>
    if start < pos then
      if le (l.getD pos default) (l.getD (parentIdx pos) default) then l
      else siftUpAux le fuel (listSwap l pos (parentIdx pos)) start
        (parentIdx pos)
    else l

/-- Rust `BinaryHeap::sift_up(start, pos)`. -/
def siftUp {α : Type} [Inhabited α] (le : α → α → Bool)
    (l : List α) (start pos : Nat) : List α :=
  siftUpAux le pos l start pos

/-- Rust `BinaryHeap::push`: append, then sift up from the last slot. -/
def heapPush {α : Type} [Inhabited α] (le : α → α → Bool)
    (l : List α) (x : α) : List α :=
  siftUp le (l ++ [x]) 0 l.length

/-- The descending phase of Rust `BinaryHeap::sift_down_to_bottom`:
walk the hole down to the bottom of the tree along the path of greater
children, unconditionally; returns the rearranged array and the final
hole position.  The hole index strictly increases and stays below the
array length, so a fuel of the array length always suffices; the
fuel-exhausted branch coincides with the loop's own exit (`pos` past
the last parent slot). -/
def siftDownLoopAux {α : Type} [Inhabited α] (le : α → α → Bool) :
    Nat → List α → Nat → List α × Nat
  | 0, l, pos => (l, pos)
  | fuel + 1, l, pos =>
    if 2 * pos + 1 ≤ l.length - 2 then
      if le (l.getD (2 * pos + 1) default) (l.getD (2 * pos + 2) default) then
        siftDownLoopAux le fuel (listSwap l pos (2 * pos + 2)) (2 * pos + 2)
      else
        siftDownLoopAux le fuel (listSwap l pos (2 * pos + 1)) (2 * pos + 1)
    else if 2 * pos + 1 = l.length - 1 then
      (listSwap l pos (2 * pos + 1), 2 * pos + 1)
    else
      (l, pos)

/-- The descending phase of Rust `BinaryHeap::sift_down_to_bottom`. -/
def siftDownLoop {α : Type} [Inhabited α] (le : α → α → Bool)
    (l : List α) (pos : Nat) : List α × Nat :=
  siftDownLoopAux le l.length l pos

/-- Rust `BinaryHeap::sift_down_to_bottom(pos)`: hole to the bottom,
then sift the carried element back up (with lower bound `pos`). -/
def siftDownToBottom {α : Type} [Inhabited α] (le : α → α → Bool)
    (l : List α) (pos : Nat) : List α :=
  let dp := siftDownLoop le l pos
  siftUp le dp.1 pos dp.2

/-- Rust `BinaryHeap::pop`: remove the last element; if the heap is
still nonempty, swap it with the root (which is returned) and restore
the heap shape with `sift_down_to_bottom(0)`. -/
def heapPop {α : Type} [Inhabited α] (le : α → α → Bool)
    (l : List α) : Option α × List α :=
  if l.length = 0 then (none, l)
  else if l.dropLast.length = 0 then
    (some (l.getD (l.length - 1) default), l.dropLast)
  else
    (some (l.dropLast.getD 0 default),
     siftDownToBottom le (l.dropLast.set 0 (l.getD (l.length - 1) default)) 0)

/-- Rust `BinaryHeap::peek`: the root slot, if any. -/
def heapPeek {α : Type} (l : List α) : Option α := l.head?

/-! ## Messages (`src/dscale/src/message.rs`)

A payload is an `Rc<dyn Message>`; the core observes only its virtual
size (`Message::virtual_size`, default `0`) and its identity.  We
model a payload as a pair of a size and an identity tag.  `Msg` also
carries the routing fields of `ProcessStep` and a ghost field
`submitTime` recording the value of `now()` at the moment the sender's
effect was drained into the network actor; the ghost field is never
read by any operation of the model, it only lets the theorems speak
about submission times. -/

structure Msg where
  source : Nat
  dest : Nat
  size : Nat
  tag : Nat
  submitTime : Nat
deriving DecidableEq, Repr, Inhabited

/-- `RoutedMessage`: an arrival time plus a `ProcessStep`. -/
structure RoutedMsg where
  arrival : Nat
  msg : Msg
deriving DecidableEq, Repr, Inhabited

/-- The stored order of the message heaps.  The heaps store
`Reverse<RoutedMessage>` and `RoutedMessage`'s `Ord` compares
`arrival_time` only, so `Reverse a ≤ Reverse b ↔ b.arrival ≤ a.arrival`. -/
def rmLe (a b : RoutedMsg) : Bool := b.arrival ≤ a.arrival

/-- An entry of the timer manager's heap:
`(fire_time, (process_id, timer_id))`. -/
structure TimerEntry where
  time : Nat
  pid : Nat
  tid : Nat
deriving DecidableEq, Repr, Inhabited

/-- Stored order of `BinaryHeap<Reverse<(Jiffies, (ProcessId, TimerId))>>`:
the derived tuple `Ord` is lexicographic, then reversed. -/
def tmLe (a b : TimerEntry) : Bool :=
  decide (b.time < a.time ∨ (b.time = a.time ∧
    (b.pid < a.pid ∨ (b.pid = a.pid ∧ b.tid ≤ a.tid))))

/-! ## Virtual clock and unique-id source
(`src/dscale/src/global/clock.rs`, `src/dscale/src/global/tso.rs`)

Both are thread-local cells; we model them as explicit state.  Note
that `global_unique_id` is `TSO.replace(TSO.get() + 1)`, and
`Cell::replace` returns the *previous* value: the call returns the old
counter and stores the incremented one.  The counter starts at `0`. -/

/-- `global_unique_id`: returns the old counter value, stores old + 1. -/
def globalUniqueId (tso : Nat) : Nat × Nat := (tso, tso + 1)

/-! ## Latency queue (`src/dscale/src/network/latency.rs`)

`push` adds a latency sample drawn from the seeded randomizer for the
`(source, dest)` distribution, then inserts into the time-priority
heap.  The randomizer is a deterministic stream once the seed is
fixed; the model takes the drawn sample as an explicit argument (the
full simulator state threads a sample stream, covering every seed and
every distribution, whose samples are nonnegative integers). -/

def latPush (q : List RoutedMsg) (m : RoutedMsg) (sample : Nat) :
    List RoutedMsg :=
  heapPush rmLe q { m with arrival := m.arrival + sample }

def latPop (q : List RoutedMsg) : Option RoutedMsg × List RoutedMsg :=
  heapPop rmLe q

def latPeek (q : List RoutedMsg) : Option RoutedMsg := heapPeek q

/-! ## Bandwidth queue (`src/dscale/src/network/bandwidth.rs`) -/

/-- `usize::MAX`, the sentinel `BandwidthQueue::new` stores for
`BandwidthDescription::Unbounded`. -/
def usizeMax : Nat := 2 ^ 64 - 1

inductive BandwidthDescription where
  | Unbounded : BandwidthDescription
  | Bounded : Nat → BandwidthDescription

structure BandwidthQueue where
  bandwidth : Nat
  globalQueue : List RoutedMsg
  totalPased : List Nat
  mergedFifoBuffers : List RoutedMsg
deriving Repr

namespace BandwidthQueue

/-- `BandwidthQueue::new`. -/
def new (bt : BandwidthDescription) (procNum : Nat) : BandwidthQueue :=
  { bandwidth := match bt with
      | .Unbounded => usizeMax
      | .Bounded bound => bound
    globalQueue := []
    totalPased := List.replicate (procNum + 1) 0
    mergedFifoBuffers := [] }

/-- `BandwidthQueue::push`: forwards to the latency queue (which adds
the latency sample). -/
def push (bq : BandwidthQueue) (m : RoutedMsg) (sample : Nat) :
    BandwidthQueue :=
  { bq with globalQueue := latPush bq.globalQueue m sample }

/-- `BandwidthQueue::move_message_from_latency_queue_to_buffers`.
`now` is the value of the global clock (`now()` in the source).
Note the source restamps with flooring integer division
(`new_total / self.bandwidth`). -/
def moveMessageFromLatencyQueueToBuffers (bq : BandwidthQueue)
    (now : Nat) : BandwidthQueue :=
  let pr := latPop bq.globalQueue
  match pr.1 with
  | none => bq -- unreachable: the caller checked the queue is nonempty
  | some message =>
    let newTotal := bq.totalPased.getD message.msg.dest 0 + message.msg.size
    let message :=
      if now * bq.bandwidth < newTotal then
        { message with arrival := newTotal / bq.bandwidth }
      else message
    { bq with
        globalQueue := pr.2
        mergedFifoBuffers := heapPush rmLe bq.mergedFifoBuffers message }

/-- `BandwidthQueue::deliver_from_buffer`. -/
def deliverFromBuffer (bq : BandwidthQueue) :
    Option RoutedMsg × BandwidthQueue :=
  let pr := heapPop rmLe bq.mergedFifoBuffers
  match pr.1 with
  | none => (none, bq) -- unreachable: the caller checked nonemptiness
  | some message =>
    (some message,
     { bq with
         mergedFifoBuffers := pr.2
         totalPased := bq.totalPased.set message.msg.dest
           (bq.totalPased.getD message.msg.dest 0 + message.msg.size) })

/-- `BandwidthQueue::deliver_from_latency_queue`: unbounded fast path
delivers directly; bounded path moves the head into the buffers and
delivers nothing this step. -/
def deliverFromLatencyQueue (bq : BandwidthQueue) (now : Nat) :
    Option RoutedMsg × BandwidthQueue :=
  if bq.bandwidth = usizeMax then
    let pr := latPop bq.globalQueue
    (pr.1, { bq with globalQueue := pr.2 })
  else
    (none, bq.moveMessageFromLatencyQueueToBuffers now)

/-- `BandwidthQueue::pop`. -/
def pop (bq : BandwidthQueue) (now : Nat) :
    Option RoutedMsg × BandwidthQueue :=
  match latPeek bq.globalQueue, heapPeek bq.mergedFifoBuffers with
  | none, none => (none, bq)
  | some _, none => bq.deliverFromLatencyQueue now
  | none, some _ => bq.deliverFromBuffer
  | some lMessage, some bMessage =>
    if lMessage.arrival ≤ bMessage.arrival then
      bq.deliverFromLatencyQueue now
    else
      bq.deliverFromBuffer

/-- `BandwidthQueue::peek_closest`. -/
def peekClosest (bq : BandwidthQueue) : Option Nat :=
  match latPeek bq.globalQueue, heapPeek bq.mergedFifoBuffers with
  | none, none => none
  | some m, none => some m.arrival
  | none, some m => some m.arrival
  | some lMessage, some bMessage =>
    if lMessage.arrival ≤ bMessage.arrival then
      some lMessage.arrival
    else
      some bMessage.arrival

end BandwidthQueue

/-! ## Destinations and topology
(`src/dscale/src/communication/destination.rs`, `src/dscale/src/topology.rs`) -/

inductive Dest where
  | Broadcast : Dest
  | BroadcastWithinPool : String → Dest
  | To : Nat → Dest
deriving DecidableEq, Repr

/-- The pool listing of the topology (`PoolListing`); a map from pool
name to the ordered participant list.  The latency-distribution table
is not materialised here: the latency queue's sampling of it is
absorbed into the model's sample stream (see `latPush`). -/
structure Topology where
  poolListing : List (String × List Nat)
deriving Repr

/-- `Topology::list_pool` (missing pools are fatal in the source; the
model returns `[]` there and no theorem relies on that case). -/
def Topology.listPool (t : Topology) (name : String) : List Nat :=
  match t.poolListing.find? (fun p => p.1 = name) with
  | some p => p.2
  | none => []

/-! ## Execution context (`src/dscale/src/global/access.rs`)

`SimulationAccess` buffers the effects a handler produces during one
dispatch; the scheduler drains the buffers after the callback
returns.  Payloads are `(size, tag)` pairs (see `Msg`). -/

structure PendingSend where
  source : Nat
  dst : Dest
  size : Nat
  tag : Nat
deriving DecidableEq, Repr

structure PendingTimer where
  source : Nat
  tid : Nat
  after : Nat
deriving DecidableEq, Repr

structure AccessState where
  processOnExecution : Nat
  scheduledMessages : List PendingSend
  scheduledTimers : List PendingTimer
deriving Repr

/-- The public API calls a handler may issue during a callback, as far
as the claims need them (`send_random_from_pool` and the pure reads
change no core state beyond what these cover). -/
inductive ApiCall where
  | sendTo : Nat → Nat → Nat → ApiCall                   -- to, size, tag
  | broadcastWithinPool : String → Nat → Nat → ApiCall   -- pool, size, tag
  | scheduleTimerAfter : Nat → ApiCall                   -- after
deriving DecidableEq, Repr

/-! ## The whole simulator state and the scheduler
(`src/dscale/src/simulation.rs`, `src/dscale/src/network/mod.rs`,
`src/dscale/src/time/timer_manager.rs`)

User handlers are arbitrary code; the model lets an arbitrary
*script* choose the reaction of every dispatched callback (a list of
API calls, indexed by the global dispatch counter) and the value of
every latency sample.  Every theorem quantifying over scripts covers
every user handler and every seed; concrete runs instantiate the
script explicitly.  The ghost fields `delivered`, `fires` and
`dispatchCount` log what happened and are never read by the model's
operations. -/

structure Script where
  sample : Nat → Nat
  react : Nat → List ApiCall

structure SimState where
  clock : Nat
  tso : Nat
  access : AccessState
  bq : BandwidthQueue
  timers : List TimerEntry
  topology : Topology
  nurseryKeys : List Nat
  timeBudget : Nat
  rngPos : Nat
  dispatchCount : Nat
  delivered : List (Nat × RoutedMsg)
  fires : List (Nat × Nat × Nat)
  pushLog : List RoutedMsg
  tidLog : List Nat
  halted : Bool
deriving Repr

/-- Effect of one API call issued by the running handler. -/
def applyApiCall (s : SimState) (c : ApiCall) : SimState :=
  match c with
  | .sendTo toId size tag =>
    { s with access := { s.access with scheduledMessages :=
        s.access.scheduledMessages ++
          [⟨s.access.processOnExecution, Dest.To toId, size, tag⟩] } }
  | .broadcastWithinPool pool size tag =>
    { s with access := { s.access with scheduledMessages :=
        s.access.scheduledMessages ++
          [⟨s.access.processOnExecution, Dest.BroadcastWithinPool pool,
            size, tag⟩] } }
  | .scheduleTimerAfter after =>
    let idNext := globalUniqueId s.tso
    { s with
        tso := idNext.2
        tidLog := s.tidLog ++ [idNext.1]
        access := { s.access with scheduledTimers :=
          s.access.scheduledTimers ++
            [⟨s.access.processOnExecution, idNext.1, after⟩] } }

/-- `Nursery::deliver`/ `Nursery::start_single`: set the execution
context's current participant, then run the callback (the script's
reaction for the current dispatch index). -/
def dispatch (script : Script) (s : SimState) (pid : Nat) : SimState :=
  let calls := script.react s.dispatchCount
  let s := { s with
    access := { s.access with processOnExecution := pid }
    dispatchCount := s.dispatchCount + 1 }
  calls.foldl applyApiCall s

/-- Target expansion of `Network::SubmitSingleMessage`. -/
def submitTargets (s : SimState) (d : Dest) : List Nat :=
  match d with
  | .Broadcast => s.nurseryKeys
  | .BroadcastWithinPool pool => s.topology.listPool pool
  | .To toId => [toId]

/-- The `RoutedMessage` constructed for one target inside
`Network::SubmitSingleMessage`: base arrival time `now() + 1`.
(`submitTime` is the ghost submission-time record.) -/
def routedFor (clock source target size tag : Nat) : RoutedMsg :=
  { arrival := clock + 1
    msg := { source := source, dest := target, size := size, tag := tag
             submitTime := clock } }

/-- `Network::SubmitSingleMessage`: push one routed copy per target
into the bandwidth queue; each push draws one latency sample. -/
def submitSingleMessage (script : Script) (s : SimState)
    (source : Nat) (d : Dest) (size tag : Nat) : SimState :=
  (submitTargets s d).foldl (fun s target =>
    { s with
        bq := s.bq.push (routedFor s.clock source target size tag)
          (script.sample s.rngPos),
        rngPos := s.rngPos + 1,
        pushLog := s.pushLog ++ [routedFor s.clock source target size tag] }) s

/-- `TimerManager::submit`: push `(now() + after, (source, tid))`. -/
def submitTimer (s : SimState) (e : PendingTimer) : SimState :=
  { s with timers :=
      heapPush tmLe s.timers ⟨s.clock + e.after, e.source, e.tid⟩ }

/-- `global::schedule()` → `SimulationAccess::drain`: hand buffered
messages to the network actor, then buffered timers to the timer
manager, clearing both buffers. -/
def drainStep (script : Script) (s : SimState) : SimState :=
  let msgs := s.access.scheduledMessages
  let tmrs := s.access.scheduledTimers
  let s := { s with access := { s.access with
    scheduledMessages := [], scheduledTimers := [] } }
  let s := msgs.foldl (fun s e =>
    submitSingleMessage script s e.source e.dst e.size e.tag) s
  tmrs.foldl submitTimer s

/-- `Network::step`: pop the bandwidth queue; on `None` (the re-stamp
case) invoke no handler; otherwise deliver to the recipient.  The
ghost `delivered` log records `(now(), message)`. -/
def networkStep (script : Script) (s : SimState) : SimState :=
  match (s.bq.pop s.clock).1 with
  | none => { s with bq := (s.bq.pop s.clock).2 }
  | some message =>
    dispatch script
      { s with bq := (s.bq.pop s.clock).2,
               delivered := s.delivered ++ [(s.clock, message)] }
      message.msg.dest

/-- `TimerManager::step`: pop the earliest timer and fire it.  The
ghost `fires` log records `(now(), pid, tid)`. -/
def timerStep (script : Script) (s : SimState) : SimState :=
  match (heapPop tmLe s.timers).1 with
  | none => { s with timers := (heapPop tmLe s.timers).2 }
  | some e =>
    dispatch script
      { s with timers := (heapPop tmLe s.timers).2,
               fires := s.fires ++ [(s.clock, e.pid, e.tid)] }
      e.pid

inductive ActorId where
  | network : ActorId
  | timer : ActorId
deriving DecidableEq, Repr

def netPeek (s : SimState) : Option Nat := s.bq.peekClosest

def tmrPeek (s : SimState) : Option Nat := (heapPeek s.timers).map (·.time)

/-- One iteration of the loop body of `Simulation::peek_closest`:
replace the accumulator only on a strictly smaller head time. -/
def peekFold (acc : Nat × Option ActorId) (peekVal : Option Nat)
    (a : ActorId) : Nat × Option ActorId :=
  match peekVal with
  | none => acc
  | some time => if time < acc.1 then (time, some a) else acc

/-- `Simulation::peek_closest`: fold over the actors in construction
order (`vec![network_actor, timers_actor]`), starting from
`Jiffies(usize::MAX)` with no actor selected. -/
def simPeekClosest (s : SimState) : Option (Nat × ActorId) :=
  let acc := peekFold (usizeMax, none) (netPeek s) ActorId.network
  let acc := peekFold acc (tmrPeek s) ActorId.timer
  match acc.2 with
  | none => none
  | some a => some (acc.1, a)

/-- `Simulation::step`: deadlock (diagnostic + `exit(1)`, modelled by
the terminal `halted` flag) when no actor has a future event;
otherwise fast-forward the clock to the chosen head time, step that
actor, and drain the execution context. -/
def simStep (script : Script) (s : SimState) : SimState :=
  match simPeekClosest s with
  | none => { s with halted := true }
  | some fa =>
    let s := { s with clock := fa.1 }
    let s := match fa.2 with
      | .network => networkStep script s
      | .timer => timerStep script s
    drainStep script s

/-- `Simulation::start`: the network actor's `start` runs every
participant's `start` callback in nursery order, then one drain; the
timer manager's `start` is a no-op, followed by another drain. -/
def simStart (script : Script) (s : SimState) : SimState :=
  let s := s.nurseryKeys.foldl (dispatch script) s
  let s := drainStep script s
  drainStep script s

/-- The `while global::now() < self.time_budget` loop of
`Simulation::run`, with explicit fuel (the source loop need not
terminate: a handler can keep scheduling zero-delay timers). -/
def simRun (script : Script) : Nat → SimState → SimState
  | 0, s => s
  | fuel + 1, s =>
    if s.halted then s
    else if s.clock < s.timeBudget then simRun script fuel (simStep script s)
    else s

/-- Participant ids are assigned sequentially starting at 1
(`SimulationBuilder` starts `proc_id` at 1); the nursery iterates them
in ascending order (`BTreeMap`). -/
def buildKeys (n : Nat) : List Nat := List.range' 1 n

/-- The state right after `SimulationBuilder::build`: clock and TSO
fresh, empty queues, `proc_num + 1` zero bandwidth counters. -/
def initState (bt : BandwidthDescription) (topo : Topology) (n : Nat)
    (budget : Nat) : SimState :=
  { clock := 0
    tso := 0
    access := ⟨0, [], []⟩
    bq := BandwidthQueue.new bt n
    timers := []
    topology := topo
    nurseryKeys := buildKeys n
    timeBudget := budget
    rngPos := 0
    dispatchCount := 0
    delivered := []
    fires := []
    pushLog := []
    tidLog := []
    halted := false }

/-- `Simulation::run`: start-up, then the scheduler loop. -/
def simulate (script : Script) (bt : BandwidthDescription)
    (topo : Topology) (n budget fuel : Nat) : SimState :=
  simRun script fuel (simStart script (initState bt topo n budget))

/-- Total virtual size of the messages delivered to destination `d` at
or before time `t` (read off the ghost delivery log). -/
def deliveredBytesBy (s : SimState) (d t : Nat) : Nat :=
  (s.delivered.filter (fun e => e.2.msg.dest = d ∧ e.1 ≤ t)).foldl
    (fun a e => a + e.2.msg.size) 0

/-! ## Concrete scenarios used by the claim theorems -/

/-- A topology with a single pool `"p"` holding participant 1. -/
def topoOne : Topology := ⟨[("p", [1])]⟩

/-- Participant 1's `start` sends itself one message of virtual size 3
(and no handler reacts to anything else); all latency samples are 0. -/
def scriptSelfSend : Script :=
  { sample := fun _ => 0
    react := fun n => if n = 0 then [ApiCall.sendTo 1 3 99] else [] }

/-- The run of `scriptSelfSend` under `Bounded(2)` bandwidth. -/
def runBounded : SimState :=
  simulate scriptSelfSend (BandwidthDescription.Bounded 2) topoOne 1 10 10

/-- Participant 1's `start` schedules one timer with delay 10; the
time budget is 5. -/
def scriptLateTimer : Script :=
  { sample := fun _ => 0
    react := fun n => if n = 0 then [ApiCall.scheduleTimerAfter 10] else [] }

/-- The run of `scriptLateTimer` with time budget 5. -/
def runLateTimer : SimState :=
  simulate scriptLateTimer BandwidthDescription.Unbounded topoOne 1 5 10

/-- An equal-arrival-time routed message, identified by its tag. -/
def taggedMsg (k : Nat) : RoutedMsg :=
  { arrival := 5, msg := { source := k, dest := 0, size := 0, tag := k
                           submitTime := 0 } }

/-- Four messages with equal arrival time 5, pushed into the empty
latency queue in tag order 1, 2, 3, 4 (latency samples 0). -/
def fourEqualPushes : List RoutedMsg :=
  latPush (latPush (latPush (latPush [] (taggedMsg 1) 0)
    (taggedMsg 2) 0) (taggedMsg 3) 0) (taggedMsg 4) 0

/-- Observer: the tags of the first `n` messages popped from a
latency queue, in pop order. -/
def popTags : Nat → List RoutedMsg → List Nat
  | 0, _ => []
  | n + 1, q =>
    match latPop q with
    | (none, _) => []
    | (some m, q2) => m.msg.tag :: popTags n q2

/-- The bounded-bandwidth queue state of the C1 scenario: `B = 2`, one
message of virtual size 3 for destination 1 at the head of the latency
queue with arrival time 1, nothing delivered yet. -/
def bqRestamp : BandwidthQueue :=
  { bandwidth := 2
    globalQueue := [⟨1, ⟨2, 1, 3, 0, 0⟩⟩]
    totalPased := [0, 0]
    mergedFifoBuffers := [] }

/-- A topology with one pool `"p"` of three participants. -/
def topoThree : Topology := ⟨[("p", [1, 2, 3])]⟩

/-- Participant 1's `start` broadcasts one message of virtual size 4
within pool `"p"`; every latency sample is 7. -/
def scriptBroadcast : Script :=
  { sample := fun _ => 7
    react := fun n => if n = 0 then [ApiCall.broadcastWithinPool "p" 4 42]
             else [] }

/-- A state whose network head and timer head both fall at time 3:
used to witness the tie-break. -/
def tieState : SimState :=
  { initState BandwidthDescription.Unbounded topoOne 1 10 with
      bq := { BandwidthQueue.new BandwidthDescription.Unbounded 1 with
                globalQueue := [⟨3, ⟨1, 1, 0, 0, 0⟩⟩] }
      timers := [⟨3, 1, 0⟩] }

/-! ## Heap-order predicates and the run invariant -/

/-- The binary-heap shape invariant of Rust's `BinaryHeap`: every
non-root slot is `≤` its parent in the stored order. -/
def IsHeap {α : Type} [Inhabited α] (le : α → α → Bool) (l : List α) :
    Prop :=
  ∀ j, 0 < j → j < l.length →
    le (l.getD j default) (l.getD (parentIdx j) default) = true

/-- Intermediate invariant of `sift_up` at hole position `pos`: the
heap shape holds everywhere except possibly at the edge from `pos` to
its parent, and the children of `pos` are already dominated by the
parent of `pos`. -/
def UpInv {α : Type} [Inhabited α] (le : α → α → Bool) (l : List α)
    (pos : Nat) : Prop :=
  (∀ j, 0 < j → j < l.length → j ≠ pos →
    le (l.getD j default) (l.getD (parentIdx j) default) = true) ∧
  (∀ k, 0 < pos → 0 < k → k < l.length → parentIdx k = pos →
    le (l.getD k default) (l.getD (parentIdx pos) default) = true)

/-- Intermediate invariant of the descending phase of
`sift_down_to_bottom` at hole position `pos`: the heap shape holds on
every edge not touching `pos`, and the children of `pos` are dominated
by the parent of `pos`. -/
def DownInv {α : Type} [Inhabited α] (le : α → α → Bool) (l : List α)
    (pos : Nat) : Prop :=
  (∀ j, 0 < j → j < l.length → j ≠ pos → parentIdx j ≠ pos →
    le (l.getD j default) (l.getD (parentIdx j) default) = true) ∧
  (∀ k, 0 < pos → 0 < k → k < l.length → parentIdx k = pos →
    le (l.getD k default) (l.getD (parentIdx pos) default) = true)

/-- The builder accepts `Bounded(B)` with `B > 0` (with `B = 0` the
source divides by zero on the first bounded move, a panic). -/
def validBandwidth : BandwidthDescription → Prop
  | .Unbounded => True
  | .Bounded b => 1 ≤ b

/-- Run invariant of the scheduler: the three priority queues have the
binary-heap shape, every queued event lies at or after the current
clock, every queued or delivered message respects the base-arrival
lower bound `submitTime + 1`, and the bandwidth divisor is positive. -/
structure Inv (s : SimState) : Prop where
  heapG : IsHeap rmLe s.bq.globalQueue
  heapB : IsHeap rmLe s.bq.mergedFifoBuffers
  heapT : IsHeap tmLe s.timers
  clockG : ∀ m ∈ s.bq.globalQueue, s.clock ≤ m.arrival
  clockB : ∀ m ∈ s.bq.mergedFifoBuffers, s.clock ≤ m.arrival
  clockT : ∀ e ∈ s.timers, s.clock ≤ e.time
  subG : ∀ m ∈ s.bq.globalQueue, m.msg.submitTime + 1 ≤ m.arrival
  subB : ∀ m ∈ s.bq.mergedFifoBuffers, m.msg.submitTime + 1 ≤ m.arrival
  band : 1 ≤ s.bq.bandwidth
  deliv : ∀ e ∈ s.delivered, e.2.msg.submitTime + 1 ≤ e.1

/-- Ghost invariant for the unique-id source: the ids handed out so
far are exactly `0, 1, …, tso − 1` in order. -/
def TsoInv (s : SimState) : Prop := s.tidLog = List.range s.tso

/-! ## Lemmas about the heap embedding -/

theorem listSwap_length {α : Type} (l : List α) (i j : Nat) :
    (listSwap l i j).length = l.length := by
  unfold listSwap
  cases l[i]? <;> cases l[j]? <;> simp

theorem listSwap_getD {α : Type} [Inhabited α] (l : List α) (i j k : Nat)
    (hi : i < l.length) (hj : j < l.length) :
    (listSwap l i j).getD k default =
      if k = j then l.getD i default
      else if k = i then l.getD j default
      else l.getD k default := by
  unfold listSwap
  rw [List.getElem?_eq_getElem hi, List.getElem?_eq_getElem hj]
  by_cases hkj : k = j
  · subst hkj
    simp [List.getD_eq_getElem?_getD, List.getElem?_set, hj, List.length_set,
      List.getElem?_eq_getElem hi]
  · by_cases hki : k = i
    · subst hki
      simp [List.getD_eq_getElem?_getD, List.getElem?_set, hi, List.length_set,
        List.getElem?_eq_getElem hj, Ne.symm hkj, hkj]
    · simp [List.getD_eq_getElem?_getD, List.getElem?_set, Ne.symm hkj,
        Ne.symm hki, hkj, hki]

theorem mem_listSwap {α : Type} (l : List α) (i j : Nat) :
    ∀ x ∈ listSwap l i j, x ∈ l := by
  unfold listSwap
  intro x
  cases hi : l[i]? with
  | none => cases hj : l[j]? <;> exact fun hx => hx
  | some a =>
    cases hj : l[j]? with
    | none => exact fun hx => hx
    | some b =>
      intro hx
      rcases List.mem_or_eq_of_mem_set hx with hx2 | rfl
      · rcases List.mem_or_eq_of_mem_set hx2 with hx3 | rfl
        · exact hx3
        · exact List.getElem?_mem hj
      · exact List.getElem?_mem hi

theorem parentIdx_lt {j : Nat} (h : 0 < j) : parentIdx j < j := by
  unfold parentIdx
  omega

theorem siftUpAux_length {α : Type} [Inhabited α] (le : α → α → Bool)
    (fuel : Nat) : ∀ (l : List α) (start pos : Nat),
    (siftUpAux le fuel l start pos).length = l.length := by
  induction fuel with
  | zero => intro l start pos; rfl
  | succ fuel ih =>
    intro l start pos
    unfold siftUpAux
    by_cases h1 : start < pos
    · rw [if_pos h1]
      by_cases h2 : le (l.getD pos default) (l.getD (parentIdx pos) default)
        = true
      · rw [if_pos h2]
      · rw [if_neg h2, ih, listSwap_length]
    · rw [if_neg h1]

theorem siftUp_length {α : Type} [Inhabited α] (le : α → α → Bool)
    (l : List α) (start pos : Nat) :
    (siftUp le l start pos).length = l.length :=
  siftUpAux_length le pos l start pos

theorem mem_siftUpAux {α : Type} [Inhabited α] (le : α → α → Bool)
    (fuel : Nat) : ∀ (l : List α) (start pos : Nat),
    ∀ x ∈ siftUpAux le fuel l start pos, x ∈ l := by
  induction fuel with
  | zero => intro l start pos x hx; exact hx
  | succ fuel ih =>
    intro l start pos x
    unfold siftUpAux
    by_cases h1 : start < pos
    · rw [if_pos h1]
      by_cases h2 : le (l.getD pos default) (l.getD (parentIdx pos) default)
        = true
      · rw [if_pos h2]
        exact fun hx => hx
      · rw [if_neg h2]
        exact fun hx => mem_listSwap _ _ _ x (ih _ _ _ x hx)
    · rw [if_neg h1]
      exact fun hx => hx

theorem mem_siftUp {α : Type} [Inhabited α] (le : α → α → Bool)
    (l : List α) (start pos : Nat) :
    ∀ x ∈ siftUp le l start pos, x ∈ l :=
  mem_siftUpAux le pos l start pos

theorem upInv_swap {α : Type} [Inhabited α] (le : α → α → Bool)
    (htot : ∀ a b, le a b = true ∨ le b a = true)
    (htrans : ∀ a b c, le a b = true → le b c = true → le a c = true)
    (l : List α) (pos : Nat) (hlen : pos < l.length) (hpos0 : 0 < pos)
    (hup : UpInv le l pos)
    (hnot : ¬ le (l.getD pos default) (l.getD (parentIdx pos) default) = true) :
    UpInv le (listSwap l pos (parentIdx pos)) (parentIdx pos) := by
  have hq : parentIdx pos < pos := parentIdx_lt hpos0
  have hqlen : parentIdx pos < l.length := by omega
  have hswap : ∀ k, (listSwap l pos (parentIdx pos)).getD k default =
      if k = parentIdx pos then l.getD pos default
      else if k = pos then l.getD (parentIdx pos) default
      else l.getD k default :=
    fun k => listSwap_getD l pos (parentIdx pos) k hlen hqlen
  have hqp : le (l.getD (parentIdx pos) default) (l.getD pos default) = true :=
    (htot _ _).resolve_left hnot
  constructor
  · intro j hj0 hjlen hjq
    rw [listSwap_length] at hjlen
    rw [hswap j, hswap (parentIdx j)]
    by_cases hjp : j = pos
    · subst hjp
      rw [if_neg (by omega), if_pos rfl, if_pos rfl]
      exact hqp
    · by_cases hpj : parentIdx j = pos
      · rw [if_neg hjq, if_neg hjp, if_neg (by omega), if_pos hpj]
        exact hup.2 j hpos0 hj0 hjlen hpj
      · by_cases hpq : parentIdx j = parentIdx pos
        · rw [if_neg hjq, if_neg hjp, if_pos hpq]
          have h1 := hup.1 j hj0 hjlen hjp
          rw [hpq] at h1
          exact htrans _ _ _ h1 hqp
        · rw [if_neg hjq, if_neg hjp, if_neg hpq, if_neg hpj]
          exact hup.1 j hj0 hjlen hjp
  · intro k hq0 hk0 hklen hpk
    rw [listSwap_length] at hklen
    have hgpq : parentIdx (parentIdx pos) < parentIdx pos := parentIdx_lt hq0
    have hkgt : parentIdx k < k := parentIdx_lt hk0
    rw [hswap k, hswap (parentIdx (parentIdx pos))]
    rw [if_neg (show ¬parentIdx (parentIdx pos) = parentIdx pos by omega),
      if_neg (show ¬parentIdx (parentIdx pos) = pos by omega)]
    by_cases hkp : k = pos
    · rw [if_neg (show ¬k = parentIdx pos by omega), if_pos hkp]
      exact hup.1 (parentIdx pos) hq0 hqlen (by omega)
    · rw [if_neg (show ¬k = parentIdx pos by omega), if_neg hkp]
      have h1 := hup.1 k hk0 hklen hkp
      rw [hpk] at h1
      exact htrans _ _ _ h1 (hup.1 (parentIdx pos) hq0 hqlen (by omega))

theorem siftUpAux_isHeap {α : Type} [Inhabited α] (le : α → α → Bool)
    (htot : ∀ a b, le a b = true ∨ le b a = true)
    (htrans : ∀ a b c, le a b = true → le b c = true → le a c = true)
    (fuel : Nat) : ∀ (l : List α) (pos : Nat), pos ≤ fuel →
    pos < l.length → UpInv le l pos →
    IsHeap le (siftUpAux le fuel l 0 pos) := by
  induction fuel with
  | zero =>
    intro l pos hfuel hlen hup
    have hp0 : pos = 0 := by omega
    subst hp0
    intro j hj0 hjlen
    exact hup.1 j hj0 hjlen (by omega)
  | succ fuel ih =>
    intro l pos hfuel hlen hup
    unfold siftUpAux
    by_cases h1 : 0 < pos
    · rw [if_pos h1]
      by_cases h2 : le (l.getD pos default) (l.getD (parentIdx pos) default)
        = true
      · rw [if_pos h2]
        intro j hj0 hjlen
        by_cases hjp : j = pos
        · subst hjp
          exact h2
        · exact hup.1 j hj0 hjlen hjp
      · rw [if_neg h2]
        have hq : parentIdx pos < pos := parentIdx_lt h1
        refine ih _ _ (by omega) ?_ ?_
        · rw [listSwap_length]
          omega
        · exact upInv_swap le htot htrans l pos hlen h1 hup h2
    · rw [if_neg h1]
      intro j hj0 hjlen
      exact hup.1 j hj0 hjlen (by omega)

theorem siftUp_isHeap {α : Type} [Inhabited α] (le : α → α → Bool)
    (htot : ∀ a b, le a b = true ∨ le b a = true)
    (htrans : ∀ a b c, le a b = true → le b c = true → le a c = true)
    (l : List α) (start pos : Nat) :
    start = 0 → pos < l.length → UpInv le l pos →
    IsHeap le (siftUp le l start pos) := by
  intro hs hlen hup
  subst hs
  exact siftUpAux_isHeap le htot htrans pos l pos (Nat.le_refl pos) hlen hup

theorem downInv_swap {α : Type} [Inhabited α] (le : α → α → Bool)
    (l : List α) (pos c : Nat) (hlen : pos < l.length) (hc : c < l.length)
    (hchild : c = 2 * pos + 1 ∨ c = 2 * pos + 2)
    (hmax : ∀ d, (d = 2 * pos + 1 ∨ d = 2 * pos + 2) → d < l.length →
      le (l.getD d default) (l.getD c default) = true)
    (hdown : DownInv le l pos) :
    DownInv le (listSwap l pos c) c := by
  have hpc : pos < c := by omega
  have hswap : ∀ k, (listSwap l pos c).getD k default =
      if k = c then l.getD pos default
      else if k = pos then l.getD c default
      else l.getD k default :=
    fun k => listSwap_getD l pos c k hlen hc
  have hparc : parentIdx c = pos := by
    unfold parentIdx
    omega
  constructor
  · intro j hj0 hjlen hjc hpjc
    rw [listSwap_length] at hjlen
    rw [hswap j, hswap (parentIdx j)]
    by_cases hjp : j = pos
    · have hqj : parentIdx j < j := parentIdx_lt hj0
      rw [if_neg hjc, if_pos hjp, if_neg (by omega), if_neg (by omega)]
      have h1 := hdown.2 c (by omega) (by omega) hc hparc
      rw [hjp]
      exact h1
    · by_cases hpj : parentIdx j = pos
      · have hj12 : j = 2 * pos + 1 ∨ j = 2 * pos + 2 := by
          unfold parentIdx at hpj
          omega
        rw [if_neg hjc, if_neg hjp, if_neg (show ¬parentIdx j = c by omega),
          if_pos hpj]
        exact hmax j hj12 hjlen
      · rw [if_neg hjc, if_neg hjp, if_neg hpjc, if_neg hpj]
        exact hdown.1 j hj0 hjlen hjp hpj
  · intro k _ hk0 hklen hpk
    rw [listSwap_length] at hklen
    have hck : parentIdx k < k := parentIdx_lt hk0
    rw [hswap k, hswap (parentIdx c)]
    rw [hparc]
    rw [if_neg (show ¬pos = c by omega), if_pos rfl,
      if_neg (show ¬k = c by omega), if_neg (show ¬k = pos by omega)]
    have h1 := hdown.1 k hk0 hklen (by omega) (by omega)
    rw [hpk] at h1
    exact h1

theorem downInv_to_upInv {α : Type} [Inhabited α] (le : α → α → Bool)
    (l : List α) (pos : Nat) (hnoch : l.length ≤ 2 * pos + 1)
    (hdown : DownInv le l pos) :
    UpInv le l pos := by
  constructor
  · intro j hj0 hjlen hjp
    refine hdown.1 j hj0 hjlen hjp ?_
    intro hpar
    unfold parentIdx at hpar
    omega
  · intro k _ hk0 hklen hpk
    unfold parentIdx at hpk
    omega

theorem siftDownLoopAux_spec {α : Type} [Inhabited α] (le : α → α → Bool)
    (htot : ∀ a b, le a b = true ∨ le b a = true)
    (fuel : Nat) : ∀ (l : List α) (pos : Nat),
    l.length ≤ fuel + pos → pos < l.length → DownInv le l pos →
    UpInv le (siftDownLoopAux le fuel l pos).1
      (siftDownLoopAux le fuel l pos).2 ∧
    (siftDownLoopAux le fuel l pos).2 <
      (siftDownLoopAux le fuel l pos).1.length ∧
    (siftDownLoopAux le fuel l pos).1.length = l.length := by
  induction fuel with
  | zero =>
    intro l pos hfuel hlen hdown
    omega
  | succ fuel ih =>
    intro l pos hfuel hlen hdown
    unfold siftDownLoopAux
    by_cases h1 : 2 * pos + 1 ≤ l.length - 2
    · rw [if_pos h1]
      by_cases h2 : le (l.getD (2 * pos + 1) default)
          (l.getD (2 * pos + 2) default) = true
      · rw [if_pos h2]
        have hc : 2 * pos + 2 < l.length := by omega
        have hstep : DownInv le (listSwap l pos (2 * pos + 2))
            (2 * pos + 2) := by
          refine downInv_swap le l pos (2 * pos + 2) hlen hc
            (Or.inr rfl) ?_ hdown
          intro d hd hdlen
          rcases hd with rfl | rfl
          · exact h2
          · exact (htot _ _).elim id id
        have := ih _ _ (by rw [listSwap_length]; omega)
          (by rw [listSwap_length]; omega) hstep
        rw [listSwap_length] at this
        exact this
      · rw [if_neg h2]
        have hc : 2 * pos + 1 < l.length := by omega
        have hstep : DownInv le (listSwap l pos (2 * pos + 1))
            (2 * pos + 1) := by
          refine downInv_swap le l pos (2 * pos + 1) hlen hc
            (Or.inl rfl) ?_ hdown
          intro d hd hdlen
          rcases hd with rfl | rfl
          · exact (htot _ _).elim id id
          · exact (htot _ _).resolve_left h2
        have := ih _ _ (by rw [listSwap_length]; omega)
          (by rw [listSwap_length]; omega) hstep
        rw [listSwap_length] at this
        exact this
    · rw [if_neg h1]
      by_cases h3 : 2 * pos + 1 = l.length - 1
      · rw [if_pos h3]
        have hlen1 : 1 ≤ l.length := by omega
        have hc : 2 * pos + 1 < l.length := by omega
        have hstep : DownInv le (listSwap l pos (2 * pos + 1))
            (2 * pos + 1) := by
          refine downInv_swap le l pos (2 * pos + 1) hlen hc
            (Or.inl rfl) ?_ hdown
          intro d hd hdlen
          rcases hd with rfl | rfl
          · exact (htot _ _).elim id id
          · omega
        refine ⟨?_, ?_, ?_⟩
        · exact downInv_to_upInv le _ _ (by rw [listSwap_length]; omega) hstep
        · rw [listSwap_length]
          omega
        · rw [listSwap_length]
      · rw [if_neg h3]
        exact ⟨downInv_to_upInv le l pos (by omega) hdown, hlen, rfl⟩

theorem siftDownLoop_spec {α : Type} [Inhabited α] (le : α → α → Bool)
    (htot : ∀ a b, le a b = true ∨ le b a = true)
    (l : List α) (pos : Nat) :
    pos < l.length → DownInv le l pos →
    UpInv le (siftDownLoop le l pos).1 (siftDownLoop le l pos).2 ∧
    (siftDownLoop le l pos).2 < (siftDownLoop le l pos).1.length ∧
    (siftDownLoop le l pos).1.length = l.length :=
  siftDownLoopAux_spec le htot l.length l pos (by omega)

theorem getD_of_lt {α : Type} [Inhabited α] (l : List α) (j : Nat)
    (h : j < l.length) : l.getD j default = l[j] :=
  List.getD_eq_getElem l default h

theorem isHeap_heapPush {α : Type} [Inhabited α] (le : α → α → Bool)
    (htot : ∀ a b, le a b = true ∨ le b a = true)
    (htrans : ∀ a b c, le a b = true → le b c = true → le a c = true)
    (l : List α) (x : α) (hheap : IsHeap le l) :
    IsHeap le (heapPush le l x) := by
  unfold heapPush
  refine siftUp_isHeap le htot htrans _ 0 l.length rfl (by simp) ?_
  constructor
  · intro j hj0 hjlen hjp
    simp only [List.length_append, List.length_singleton] at hjlen
    have hjlt : j < l.length := by omega
    have hples : parentIdx j < l.length := by
      have := parentIdx_lt hj0
      omega
    rw [List.getD_append _ _ _ _ hjlt, List.getD_append _ _ _ _ hples]
    exact hheap j hj0 hjlt
  · intro k hpos0 hk0 hklen hpk
    simp only [List.length_append, List.length_singleton] at hklen
    unfold parentIdx at hpk
    omega

theorem mem_heapPush {α : Type} [Inhabited α] (le : α → α → Bool)
    (l : List α) (x y : α) (h : y ∈ heapPush le l x) : y ∈ l ∨ y = x := by
  have := mem_siftUp le (l ++ [x]) 0 l.length y h
  simpa using this

theorem mem_siftDownLoopAux {α : Type} [Inhabited α] (le : α → α → Bool)
    (fuel : Nat) : ∀ (l : List α) (pos : Nat),
    ∀ x ∈ (siftDownLoopAux le fuel l pos).1, x ∈ l := by
  induction fuel with
  | zero => exact fun l pos x hx => hx
  | succ fuel ih =>
    intro l pos x
    unfold siftDownLoopAux
    by_cases h1 : 2 * pos + 1 ≤ l.length - 2
    · rw [if_pos h1]
      by_cases h2 : le (l.getD (2 * pos + 1) default)
          (l.getD (2 * pos + 2) default) = true
      · rw [if_pos h2]
        exact fun hx => mem_listSwap _ _ _ x (ih _ _ x hx)
      · rw [if_neg h2]
        exact fun hx => mem_listSwap _ _ _ x (ih _ _ x hx)
    · rw [if_neg h1]
      by_cases h3 : 2 * pos + 1 = l.length - 1
      · rw [if_pos h3]
        exact fun hx => mem_listSwap _ _ _ x hx
      · rw [if_neg h3]
        exact fun hx => hx

theorem mem_siftDownLoop {α : Type} [Inhabited α] (le : α → α → Bool)
    (l : List α) (pos : Nat) :
    ∀ x ∈ (siftDownLoop le l pos).1, x ∈ l :=
  mem_siftDownLoopAux le l.length l pos

theorem isHeap_heapPop {α : Type} [Inhabited α] (le : α → α → Bool)
    (htot : ∀ a b, le a b = true ∨ le b a = true)
    (htrans : ∀ a b c, le a b = true → le b c = true → le a c = true)
    (l : List α) (hheap : IsHeap le l) : IsHeap le (heapPop le l).2 := by
  unfold heapPop
  by_cases h0 : l.length = 0
  · rw [if_pos h0]
    exact hheap
  · rw [if_neg h0]
    by_cases h1 : l.dropLast.length = 0
    · rw [if_pos h1]
      intro j hj0 hjlen
      rw [h1] at hjlen
      omega
    · rw [if_neg h1]
      simp only [List.length_dropLast] at h1
      have hlen2 : 2 ≤ l.length := by omega
      have hdg : ∀ j, 0 < j → j < l.length - 1 →
          (l.dropLast.set 0 (l.getD (l.length - 1) default)).getD j default =
            l.getD j default := by
        intro j hj0 hjl
        have hjd : j < l.dropLast.length := by
          simp only [List.length_dropLast]
          omega
        rw [List.getD_eq_getElem?_getD, List.getElem?_set,
          if_neg (by omega), List.getElem?_eq_getElem hjd,
          List.getElem_dropLast, Option.getD_some,
          getD_of_lt l j (by omega)]
      have hdlen : (l.dropLast.set 0 (l.getD (l.length - 1) default)).length =
          l.length - 1 := by
        simp
      have hdown : DownInv le
          (l.dropLast.set 0 (l.getD (l.length - 1) default)) 0 := by
        constructor
        · intro j hj0 hjlen hjp hpj
          rw [hdlen] at hjlen
          have hp0 : 0 < parentIdx j := Nat.pos_of_ne_zero hpj
          have hplt : parentIdx j < j := parentIdx_lt hj0
          rw [hdg j hj0 hjlen, hdg (parentIdx j) hp0 (by omega)]
          exact hheap j hj0 (by omega)
        · intro k hk0
          omega
      have hspec := siftDownLoop_spec le htot _ 0 (by omega) hdown
      unfold siftDownToBottom
      exact siftUp_isHeap le htot htrans _ 0 _ rfl hspec.2.1 hspec.1

theorem mem_heapPop {α : Type} [Inhabited α] (le : α → α → Bool)
    (l : List α) : ∀ x ∈ (heapPop le l).2, x ∈ l := by
  unfold heapPop
  by_cases h0 : l.length = 0
  · rw [if_pos h0]
    exact fun x hx => hx
  · rw [if_neg h0]
    by_cases h1 : l.dropLast.length = 0
    · rw [if_pos h1]
      exact fun x hx => List.mem_of_mem_dropLast hx
    · rw [if_neg h1]
      intro x hx
      unfold siftDownToBottom at hx
      have hx2 := mem_siftDownLoop le _ 0 x (mem_siftUp le _ _ _ x hx)
      rcases List.mem_or_eq_of_mem_set hx2 with hx3 | rfl
      · exact List.mem_of_mem_dropLast hx3
      · rw [getD_of_lt l (l.length - 1) (by omega)]
        exact List.getElem_mem _

theorem heapPop_fst {α : Type} [Inhabited α] (le : α → α → Bool)
    (l : List α) (h : 0 < l.length) :
    (heapPop le l).1 = some (l.getD 0 default) := by
  unfold heapPop
  rw [if_neg (by omega)]
  by_cases h1 : l.dropLast.length = 0
  · rw [if_pos h1]
    simp only [List.length_dropLast] at h1
    have : l.length - 1 = 0 := by omega
    rw [this]
  · rw [if_neg h1]
    simp only [List.length_dropLast] at h1
    have h0d : 0 < l.dropLast.length := by
      simp only [List.length_dropLast]
      omega
    rw [getD_of_lt _ 0 h0d, List.getElem_dropLast, getD_of_lt l 0 (by omega)]

theorem heapPeek_eq_some {α : Type} [Inhabited α] (l : List α)
    (h : 0 < l.length) : heapPeek l = some (l.getD 0 default) := by
  unfold heapPeek
  rw [List.head?_eq_getElem?, List.getElem?_eq_getElem h, getD_of_lt l 0 h]

theorem heapPeek_none {α : Type} (l : List α) :
    heapPeek l = none ↔ l = [] := by
  unfold heapPeek
  exact List.head?_eq_none_iff

theorem isHeap_root_le {α : Type} [Inhabited α] (le : α → α → Bool)
    (htot : ∀ a b, le a b = true ∨ le b a = true)
    (htrans : ∀ a b c, le a b = true → le b c = true → le a c = true)
    (l : List α) (hheap : IsHeap le l) :
    ∀ x ∈ l, le x (l.getD 0 default) = true := by
  have hidx : ∀ j, j < l.length → le (l.getD j default) (l.getD 0 default) = true := by
    intro j
    induction j using Nat.strong_induction_on with
    | _ j ih =>
      intro hjlen
      rcases Nat.eq_zero_or_pos j with rfl | hj0
      · exact (htot _ _).elim id id
      · have hplt : parentIdx j < j := parentIdx_lt hj0
        exact htrans _ _ _ (hheap j hj0 hjlen) (ih (parentIdx j) hplt (by omega))
  intro x hx
  obtain ⟨j, hj, hx2⟩ := List.mem_iff_getElem.mp hx
  have := hidx j hj
  rwa [getD_of_lt l j hj, hx2] at this

theorem rmLe_total : ∀ a b, rmLe a b = true ∨ rmLe b a = true := by
  intro a b
  simp only [rmLe, decide_eq_true_eq]
  omega

theorem rmLe_trans : ∀ a b c, rmLe a b = true → rmLe b c = true →
    rmLe a c = true := by
  intro a b c
  simp only [rmLe, decide_eq_true_eq]
  omega

theorem tmLe_total : ∀ a b, tmLe a b = true ∨ tmLe b a = true := by
  intro a b
  simp only [tmLe, decide_eq_true_eq]
  omega

theorem tmLe_trans : ∀ a b c, tmLe a b = true → tmLe b c = true →
    tmLe a c = true := by
  intro a b c
  simp only [tmLe, decide_eq_true_eq]
  omega

/-! ## Stability of state fields across handler dispatch -/

/-- The fields of the simulator state that a handler callback (and its
buffered API calls) cannot touch: everything except the execution
context's buffers, the TSO and the dispatch counter. -/
def coreView (s : SimState) :
    Nat × BandwidthQueue × List TimerEntry × List (Nat × RoutedMsg) ×
    List (Nat × Nat × Nat) × Topology × List Nat × Nat × Bool ×
    List RoutedMsg :=
  (s.clock, s.bq, s.timers, s.delivered, s.fires, s.topology,
   s.nurseryKeys, s.timeBudget, s.halted, s.pushLog)

theorem applyApiCall_coreView (s : SimState) (c : ApiCall) :
    coreView (applyApiCall s c) = coreView s := by
  cases c <;> rfl

theorem applyCalls_coreView (calls : List ApiCall) (s : SimState) :
    coreView (calls.foldl applyApiCall s) = coreView s := by
  induction calls generalizing s with
  | nil => rfl
  | cons c cs ih => exact (ih (applyApiCall s c)).trans (applyApiCall_coreView s c)

theorem dispatch_coreView (script : Script) (s : SimState) (pid : Nat) :
    coreView (dispatch script s pid) = coreView s := by
  unfold dispatch
  exact applyCalls_coreView _ _

theorem inv_of_coreView_eq {s t : SimState} (h : coreView s = coreView t)
    (hi : Inv t) : Inv s := by
  have h1 : s.clock = t.clock := congrArg (fun x => x.1) h
  have h2 : s.bq = t.bq := congrArg (fun x => x.2.1) h
  have h3 : s.timers = t.timers := congrArg (fun x => x.2.2.1) h
  have h4 : s.delivered = t.delivered := congrArg (fun x => x.2.2.2.1) h
  exact { heapG := h2 ▸ hi.heapG
          heapB := h2 ▸ hi.heapB
          heapT := h3 ▸ hi.heapT
          clockG := h1 ▸ h2 ▸ hi.clockG
          clockB := h1 ▸ h2 ▸ hi.clockB
          clockT := h1 ▸ h3 ▸ hi.clockT
          subG := h2 ▸ hi.subG
          subB := h2 ▸ hi.subB
          band := h2 ▸ hi.band
          deliv := h4 ▸ hi.deliv }

theorem dispatch_inv (script : Script) (s : SimState) (pid : Nat)
    (h : Inv s) : Inv (dispatch script s pid) :=
  inv_of_coreView_eq (dispatch_coreView script s pid) h

/-! ## Invariant preservation by the drain -/

theorem pushState_inv (script : Script) (s : SimState)
    (source target size tag : Nat) (h : Inv s) :
    Inv { s with
        bq := s.bq.push (routedFor s.clock source target size tag)
          (script.sample s.rngPos),
        rngPos := s.rngPos + 1,
        pushLog := s.pushLog ++ [routedFor s.clock source target size tag] } := by
  refine { heapG := ?_, heapB := h.heapB, heapT := h.heapT, clockG := ?_,
           clockB := h.clockB, clockT := h.clockT, subG := ?_,
           subB := h.subB, band := h.band, deliv := h.deliv }
  · show IsHeap rmLe (latPush s.bq.globalQueue _ _)
    unfold latPush
    exact isHeap_heapPush rmLe rmLe_total rmLe_trans _ _ h.heapG
  · intro m hm
    rcases mem_heapPush rmLe _ _ m hm with hold | rfl
    · exact h.clockG m hold
    · show s.clock ≤ s.clock + 1 + script.sample s.rngPos
      omega
  · intro m hm
    rcases mem_heapPush rmLe _ _ m hm with hold | rfl
    · exact h.subG m hold
    · show s.clock + 1 ≤ s.clock + 1 + script.sample s.rngPos
      omega

theorem submitSingleMessage_inv (script : Script) (s : SimState)
    (source : Nat) (d : Dest) (size tag : Nat) (h : Inv s) :
    Inv (submitSingleMessage script s source d size tag) := by
  unfold submitSingleMessage
  generalize submitTargets s d = ts
  induction ts generalizing s with
  | nil => exact h
  | cons t ts ih =>
    simp only [List.foldl_cons]
    exact ih _ (pushState_inv script s source t size tag h)

theorem submitTimer_inv (s : SimState) (e : PendingTimer) (h : Inv s) :
    Inv (submitTimer s e) := by
  refine { heapG := h.heapG, heapB := h.heapB, heapT := ?_,
           clockG := h.clockG, clockB := h.clockB, clockT := ?_,
           subG := h.subG, subB := h.subB, band := h.band,
           deliv := h.deliv }
  · exact isHeap_heapPush tmLe tmLe_total tmLe_trans _ _ h.heapT
  · intro x hx
    rcases mem_heapPush tmLe _ _ x hx with hold | rfl
    · exact h.clockT x hold
    · show s.clock ≤ s.clock + e.after
      omega

theorem drainMsgs_inv (script : Script) :
    ∀ (msgs : List PendingSend) (s : SimState), Inv s →
    Inv (msgs.foldl (fun s e =>
      submitSingleMessage script s e.source e.dst e.size e.tag) s) := by
  intro msgs
  induction msgs with
  | nil => exact fun s h => h
  | cons e es ih =>
    intro s h
    simp only [List.foldl_cons]
    exact ih _ (submitSingleMessage_inv script s e.source e.dst e.size e.tag h)

theorem drainTmrs_inv :
    ∀ (tmrs : List PendingTimer) (s : SimState), Inv s →
    Inv (tmrs.foldl submitTimer s) := by
  intro tmrs
  induction tmrs with
  | nil => exact fun s h => h
  | cons e es ih =>
    intro s h
    simp only [List.foldl_cons]
    exact ih _ (submitTimer_inv s e h)

theorem drainStep_inv (script : Script) (s : SimState) (h : Inv s) :
    Inv (drainStep script s) := by
  unfold drainStep
  refine drainTmrs_inv _ _ (drainMsgs_inv script _ _ ?_)
  exact { heapG := h.heapG, heapB := h.heapB, heapT := h.heapT,
          clockG := h.clockG, clockB := h.clockB, clockT := h.clockT,
          subG := h.subG, subB := h.subB, band := h.band,
          deliv := h.deliv }

/-! ## Invariant preservation by the network and timer steps -/

theorem heapPeek_some {α : Type} [Inhabited α] {l : List α} {x : α}
    (h : heapPeek l = some x) : 0 < l.length ∧ x = l.getD 0 default := by
  cases l with
  | nil => simp [heapPeek] at h
  | cons a as =>
    simp only [heapPeek, List.head?_cons, Option.some.injEq] at h
    exact ⟨by simp, by simp [h.symm]⟩

theorem mem_getD_zero {α : Type} [Inhabited α] (l : List α)
    (h : 0 < l.length) : l.getD 0 default ∈ l := by
  rw [getD_of_lt l 0 h]
  exact List.getElem_mem _

theorem deliverFromBuffer_spec (s : SimState) (h : Inv s)
    (hb : 0 < s.bq.mergedFifoBuffers.length)
    (hroot : (s.bq.mergedFifoBuffers.getD 0 default).arrival = s.clock) :
    Inv { s with bq := s.bq.deliverFromBuffer.2 } ∧
    ∀ m, s.bq.deliverFromBuffer.1 = some m →
      m.msg.submitTime + 1 ≤ s.clock ∧ m.arrival = s.clock := by
  have hroot_mem := mem_getD_zero _ hb
  constructor
  · unfold BandwidthQueue.deliverFromBuffer
    simp only [heapPop_fst rmLe _ hb]
    refine { heapG := h.heapG, heapB := ?_, heapT := h.heapT,
             clockG := h.clockG, clockB := ?_, clockT := h.clockT,
             subG := h.subG, subB := ?_, band := h.band,
             deliv := h.deliv }
    · exact isHeap_heapPop rmLe rmLe_total rmLe_trans _ h.heapB
    · exact fun m hm => h.clockB m (mem_heapPop rmLe _ m hm)
    · exact fun m hm => h.subB m (mem_heapPop rmLe _ m hm)
  · intro m hm
    unfold BandwidthQueue.deliverFromBuffer at hm
    simp only [heapPop_fst rmLe _ hb, Option.some.injEq] at hm
    subst hm
    refine ⟨?_, hroot⟩
    have := h.subB _ hroot_mem
    omega

theorem deliverFromLatencyQueue_spec (s : SimState) (h : Inv s)
    (hg : 0 < s.bq.globalQueue.length)
    (hroot : (s.bq.globalQueue.getD 0 default).arrival = s.clock) :
    Inv { s with bq := (s.bq.deliverFromLatencyQueue s.clock).2 } ∧
    ∀ m, (s.bq.deliverFromLatencyQueue s.clock).1 = some m →
      m.msg.submitTime + 1 ≤ s.clock ∧ m.arrival = s.clock := by
  have hroot_mem := mem_getD_zero _ hg
  have hpopG : IsHeap rmLe (heapPop rmLe s.bq.globalQueue).2 :=
    isHeap_heapPop rmLe rmLe_total rmLe_trans _ h.heapG
  unfold BandwidthQueue.deliverFromLatencyQueue
  by_cases hub : s.bq.bandwidth = usizeMax
  · rw [if_pos hub]
    constructor
    · refine { heapG := ?_, heapB := h.heapB, heapT := h.heapT,
               clockG := ?_, clockB := h.clockB, clockT := h.clockT,
               subG := ?_, subB := h.subB, band := h.band,
               deliv := h.deliv }
      · exact hpopG
      · exact fun m hm => h.clockG m (mem_heapPop rmLe _ m hm)
      · exact fun m hm => h.subG m (mem_heapPop rmLe _ m hm)
    · intro m hm
      unfold latPop at hm
      simp only [heapPop_fst rmLe _ hg, Option.some.injEq] at hm
      subst hm
      refine ⟨?_, hroot⟩
      have := h.subG _ hroot_mem
      omega
  · rw [if_neg hub]
    refine ⟨?_, by intro m hm; exact absurd hm (by simp)⟩
    unfold BandwidthQueue.moveMessageFromLatencyQueueToBuffers
    unfold latPop
    simp only [heapPop_fst rmLe _ hg]
    refine { heapG := hpopG, heapB := ?_, heapT := h.heapT,
             clockG := ?_, clockB := ?_, clockT := h.clockT,
             subG := ?_, subB := ?_, band := h.band,
             deliv := h.deliv }
    · exact isHeap_heapPush rmLe rmLe_total rmLe_trans _ _ h.heapB
    · exact fun m hm => h.clockG m (mem_heapPop rmLe _ m hm)
    · intro m hm
      rcases mem_heapPush rmLe _ _ m hm with hold | rfl
      · exact h.clockB m hold
      · set root := s.bq.globalQueue.getD 0 default with hrd
        by_cases hcond : s.clock * s.bq.bandwidth <
            s.bq.totalPased.getD root.msg.dest 0 + root.msg.size
        · rw [if_pos hcond]
          show s.clock ≤ _ / s.bq.bandwidth
          rw [Nat.le_div_iff_mul_le h.band]
          omega
        · rw [if_neg hcond]
          rw [hroot]
    · exact fun m hm => h.subG m (mem_heapPop rmLe _ m hm)
    · intro m hm
      rcases mem_heapPush rmLe _ _ m hm with hold | rfl
      · exact h.subB m hold
      · set root := s.bq.globalQueue.getD 0 default with hrd
        have hsub : root.msg.submitTime + 1 ≤ s.clock := by
          have := h.subG _ hroot_mem
          omega
        by_cases hcond : s.clock * s.bq.bandwidth <
            s.bq.totalPased.getD root.msg.dest 0 + root.msg.size
        · rw [if_pos hcond]
          show root.msg.submitTime + 1 ≤ _ / s.bq.bandwidth
          have hge : s.clock ≤
              (s.bq.totalPased.getD root.msg.dest 0 + root.msg.size) /
                s.bq.bandwidth := by
            rw [Nat.le_div_iff_mul_le h.band]
            omega
          omega
        · rw [if_neg hcond]
          show root.msg.submitTime + 1 ≤ root.arrival
          omega

theorem pop_spec (s : SimState) (h : Inv s)
    (hpk : s.bq.peekClosest = some s.clock) :
    Inv { s with bq := (s.bq.pop s.clock).2 } ∧
    ∀ m, (s.bq.pop s.clock).1 = some m →
      m.msg.submitTime + 1 ≤ s.clock ∧ m.arrival = s.clock := by
  unfold BandwidthQueue.pop
  unfold BandwidthQueue.peekClosest at hpk
  split
  next hgp hbp =>
    rw [hgp, hbp] at hpk
    exact absurd (hpk : (none : Option Nat) = some s.clock) (by simp)
  next lm hgp hbp =>
    rw [hgp, hbp] at hpk
    have hpk2 : lm.arrival = s.clock := by
      have := (hpk : some lm.arrival = some s.clock)
      simpa using this
    obtain ⟨hglen, hgeq⟩ :=
      heapPeek_some (hgp : heapPeek s.bq.globalQueue = some lm)
    exact deliverFromLatencyQueue_spec s h hglen (by rw [← hgeq, hpk2])
  next bm hgp hbp =>
    rw [hgp, hbp] at hpk
    have hpk2 : bm.arrival = s.clock := by
      have := (hpk : some bm.arrival = some s.clock)
      simpa using this
    obtain ⟨hblen, hbeq⟩ := heapPeek_some hbp
    exact deliverFromBuffer_spec s h hblen (by rw [← hbeq, hpk2])
  next lm bm hgp hbp =>
    rw [hgp, hbp] at hpk
    have hpk2 : (if lm.arrival ≤ bm.arrival then some lm.arrival
        else some bm.arrival) = some s.clock := hpk
    obtain ⟨hglen, hgeq⟩ :=
      heapPeek_some (hgp : heapPeek s.bq.globalQueue = some lm)
    obtain ⟨hblen, hbeq⟩ := heapPeek_some hbp
    split
    next hc =>
      rw [if_pos hc] at hpk2
      simp only [Option.some.injEq] at hpk2
      exact deliverFromLatencyQueue_spec s h hglen (by rw [← hgeq, hpk2])
    next hc =>
      rw [if_neg hc] at hpk2
      simp only [Option.some.injEq] at hpk2
      exact deliverFromBuffer_spec s h hblen (by rw [← hbeq, hpk2])

theorem networkStep_inv (script : Script) (s : SimState) (h : Inv s)
    (hpk : s.bq.peekClosest = some s.clock) :
    Inv (networkStep script s) := by
  obtain ⟨hinv2, hdel⟩ := pop_spec s h hpk
  unfold networkStep
  split
  next hm => exact hinv2
  next m hm =>
    refine dispatch_inv script _ _ ?_
    refine { heapG := hinv2.heapG, heapB := hinv2.heapB,
             heapT := hinv2.heapT, clockG := hinv2.clockG,
             clockB := hinv2.clockB, clockT := hinv2.clockT,
             subG := hinv2.subG, subB := hinv2.subB,
             band := hinv2.band, deliv := ?_ }
    intro e he
    rcases List.mem_append.mp he with hold | hnew
    · exact hinv2.deliv e hold
    · have : e = (s.clock, m) := by simpa using hnew
      subst this
      exact (hdel m hm).1

theorem timerStep_inv (script : Script) (s : SimState) (h : Inv s) :
    Inv (timerStep script s) := by
  unfold timerStep
  have hheapT : IsHeap tmLe (heapPop tmLe s.timers).2 :=
    isHeap_heapPop tmLe tmLe_total tmLe_trans _ h.heapT
  have hclockT : ∀ e ∈ (heapPop tmLe s.timers).2, s.clock ≤ e.time :=
    fun e he => h.clockT e (mem_heapPop tmLe _ e he)
  split
  next hm =>
    exact { heapG := h.heapG, heapB := h.heapB, heapT := hheapT,
            clockG := h.clockG, clockB := h.clockB, clockT := hclockT,
            subG := h.subG, subB := h.subB, band := h.band,
            deliv := h.deliv }
  next e hm =>
    refine dispatch_inv script _ _ ?_
    exact { heapG := h.heapG, heapB := h.heapB, heapT := hheapT,
            clockG := h.clockG, clockB := h.clockB, clockT := hclockT,
            subG := h.subG, subB := h.subB, band := h.band,
            deliv := h.deliv }

/-! ## Bounds delivered by the peeks -/

theorem peekClosest_none (bq : BandwidthQueue)
    (h : bq.peekClosest = none) :
    bq.globalQueue = [] ∧ bq.mergedFifoBuffers = [] := by
  unfold BandwidthQueue.peekClosest at h
  rcases hgp : latPeek bq.globalQueue with _ | lm <;>
    rcases hbp : heapPeek bq.mergedFifoBuffers with _ | bm <;>
    rw [hgp, hbp] at h
  · exact ⟨(heapPeek_none _).mp hgp, (heapPeek_none _).mp hbp⟩
  · exact absurd (h : some bm.arrival = none) (by simp)
  · exact absurd (h : some lm.arrival = none) (by simp)
  · have h2 : (if lm.arrival ≤ bm.arrival then some lm.arrival
        else some bm.arrival) = (none : Option Nat) := h
    by_cases hc : lm.arrival ≤ bm.arrival
    · rw [if_pos hc] at h2
      exact absurd h2 (by simp)
    · rw [if_neg hc] at h2
      exact absurd h2 (by simp)

theorem peekClosest_mem (bq : BandwidthQueue) (v : Nat)
    (h : bq.peekClosest = some v) :
    (∃ m ∈ bq.globalQueue, v = m.arrival) ∨
    (∃ m ∈ bq.mergedFifoBuffers, v = m.arrival) := by
  unfold BandwidthQueue.peekClosest at h
  rcases hgp : latPeek bq.globalQueue with _ | lm <;>
    rcases hbp : heapPeek bq.mergedFifoBuffers with _ | bm <;>
    rw [hgp, hbp] at h
  · exact absurd (h : (none : Option Nat) = some v) (by simp)
  · obtain ⟨hblen, hbeq⟩ := heapPeek_some hbp
    have hv : bm.arrival = v := by simpa using (h : some bm.arrival = some v)
    exact Or.inr ⟨bm, hbeq ▸ mem_getD_zero _ hblen, hv.symm⟩
  · obtain ⟨hglen, hgeq⟩ :=
      heapPeek_some (hgp : heapPeek bq.globalQueue = some lm)
    have hv : lm.arrival = v := by simpa using (h : some lm.arrival = some v)
    exact Or.inl ⟨lm, hgeq ▸ mem_getD_zero _ hglen, hv.symm⟩
  · obtain ⟨hglen, hgeq⟩ :=
      heapPeek_some (hgp : heapPeek bq.globalQueue = some lm)
    obtain ⟨hblen, hbeq⟩ := heapPeek_some hbp
    have h2 : (if lm.arrival ≤ bm.arrival then some lm.arrival
        else some bm.arrival) = some v := h
    by_cases hc : lm.arrival ≤ bm.arrival
    · rw [if_pos hc] at h2
      have hv : lm.arrival = v := by simpa using h2
      exact Or.inl ⟨lm, hgeq ▸ mem_getD_zero _ hglen, hv.symm⟩
    · rw [if_neg hc] at h2
      have hv : bm.arrival = v := by simpa using h2
      exact Or.inr ⟨bm, hbeq ▸ mem_getD_zero _ hblen, hv.symm⟩

theorem rmLe_root {l : List RoutedMsg} (hheap : IsHeap rmLe l) :
    ∀ m ∈ l, (l.getD 0 default).arrival ≤ m.arrival := by
  intro m hm
  have := isHeap_root_le rmLe rmLe_total rmLe_trans l hheap m hm
  simpa [rmLe] using this

theorem tmLe_root {l : List TimerEntry} (hheap : IsHeap tmLe l) :
    ∀ e ∈ l, (l.getD 0 default).time ≤ e.time := by
  intro e he
  have := isHeap_root_le tmLe tmLe_total tmLe_trans l hheap e he
  simp only [tmLe, decide_eq_true_eq] at this
  omega

theorem peekClosest_lb (bq : BandwidthQueue)
    (hG : IsHeap rmLe bq.globalQueue)
    (hB : IsHeap rmLe bq.mergedFifoBuffers) (v : Nat)
    (h : bq.peekClosest = some v) :
    (∀ m ∈ bq.globalQueue, v ≤ m.arrival) ∧
    (∀ m ∈ bq.mergedFifoBuffers, v ≤ m.arrival) := by
  unfold BandwidthQueue.peekClosest at h
  rcases hgp : latPeek bq.globalQueue with _ | lm <;>
    rcases hbp : heapPeek bq.mergedFifoBuffers with _ | bm <;>
    rw [hgp, hbp] at h
  · exact absurd (h : (none : Option Nat) = some v) (by simp)
  · obtain ⟨hblen, hbeq⟩ := heapPeek_some hbp
    have hv : bm.arrival = v := by simpa using (h : some bm.arrival = some v)
    have hge : bq.globalQueue = [] := (heapPeek_none _).mp hgp
    refine ⟨by rw [hge]; simp, ?_⟩
    intro m hm
    rw [← hv, hbeq]
    exact rmLe_root hB m hm
  · obtain ⟨hglen, hgeq⟩ :=
      heapPeek_some (hgp : heapPeek bq.globalQueue = some lm)
    have hv : lm.arrival = v := by simpa using (h : some lm.arrival = some v)
    have hbe : bq.mergedFifoBuffers = [] := (heapPeek_none _).mp hbp
    refine ⟨?_, by rw [hbe]; simp⟩
    intro m hm
    rw [← hv, hgeq]
    exact rmLe_root hG m hm
  · obtain ⟨hglen, hgeq⟩ :=
      heapPeek_some (hgp : heapPeek bq.globalQueue = some lm)
    obtain ⟨hblen, hbeq⟩ := heapPeek_some hbp
    have h2 : (if lm.arrival ≤ bm.arrival then some lm.arrival
        else some bm.arrival) = some v := h
    have hlmr : ∀ m ∈ bq.globalQueue, lm.arrival ≤ m.arrival := by
      intro m hm
      rw [hgeq]
      exact rmLe_root hG m hm
    have hbmr : ∀ m ∈ bq.mergedFifoBuffers, bm.arrival ≤ m.arrival := by
      intro m hm
      rw [hbeq]
      exact rmLe_root hB m hm
    by_cases hc : lm.arrival ≤ bm.arrival
    · rw [if_pos hc] at h2
      have hv : lm.arrival = v := by simpa using h2
      exact ⟨fun m hm => hv ▸ hlmr m hm,
             fun m hm => hv ▸ Nat.le_trans hc (hbmr m hm)⟩
    · rw [if_neg hc] at h2
      have hv : bm.arrival = v := by simpa using h2
      exact ⟨fun m hm => hv ▸ Nat.le_trans (by omega) (hlmr m hm),
             fun m hm => hv ▸ hbmr m hm⟩

theorem tmrPeek_none (s : SimState) (h : tmrPeek s = none) :
    s.timers = [] := by
  unfold tmrPeek at h
  rcases hp : heapPeek s.timers with _ | e
  · exact (heapPeek_none _).mp hp
  · rw [hp] at h
    exact absurd h (by simp)

theorem tmrPeek_some (s : SimState) (v : Nat) (hheap : IsHeap tmLe s.timers)
    (h : tmrPeek s = some v) :
    (∃ e ∈ s.timers, v = e.time) ∧ ∀ e ∈ s.timers, v ≤ e.time := by
  unfold tmrPeek at h
  rcases hp : heapPeek s.timers with _ | e
  · rw [hp] at h
    exact absurd h (by simp)
  · rw [hp] at h
    obtain ⟨hlen, heq⟩ := heapPeek_some hp
    have hv : e.time = v := by simpa using h
    refine ⟨⟨e, heq ▸ mem_getD_zero _ hlen, hv.symm⟩, ?_⟩
    intro x hx
    rw [← hv, heq]
    exact tmLe_root hheap x hx

theorem simPeekClosest_eq (s : SimState) :
    simPeekClosest s =
      match netPeek s, tmrPeek s with
      | none, none => none
      | some v, none => if v < usizeMax then some (v, ActorId.network) else none
      | none, some u => if u < usizeMax then some (u, ActorId.timer) else none
      | some v, some u =>
        if v < usizeMax then
          if u < v then some (u, ActorId.timer) else some (v, ActorId.network)
        else if u < usizeMax then some (u, ActorId.timer) else none := by
  unfold simPeekClosest
  rcases netPeek s with _ | v <;> rcases tmrPeek s with _ | u <;>
    simp only [peekFold]
  · by_cases hu : u < usizeMax
    · rw [if_pos hu, if_pos hu]
    · rw [if_neg hu, if_neg hu]
  · by_cases hv : v < usizeMax
    · rw [if_pos hv, if_pos hv]
    · rw [if_neg hv, if_neg hv]
  · by_cases hv : v < usizeMax
    · rw [if_pos hv, if_pos hv]
      by_cases hu : u < v
      · rw [if_pos (show u < ((v, some ActorId.network) :
            Nat × Option ActorId).1 from hu), if_pos hu]
      · rw [if_neg (show ¬u < ((v, some ActorId.network) :
            Nat × Option ActorId).1 from hu), if_neg hu]
    · rw [if_neg hv, if_neg hv]
      by_cases hu : u < usizeMax
      · rw [if_pos (show u < ((usizeMax, none) :
            Nat × Option ActorId).1 from hu), if_pos hu]
      · rw [if_neg (show ¬u < ((usizeMax, none) :
            Nat × Option ActorId).1 from hu), if_neg hu]

theorem simPeekClosest_facts (s : SimState) (t : Nat) (a : ActorId)
    (h : simPeekClosest s = some (t, a)) :
    ((a = ActorId.network ∧ netPeek s = some t) ∨
     (a = ActorId.timer ∧ tmrPeek s = some t)) ∧
    (∀ v, netPeek s = some v → t ≤ v) ∧
    (∀ v, tmrPeek s = some v → t ≤ v) := by
  rw [simPeekClosest_eq] at h
  rcases hn : netPeek s with _ | v <;> rcases ht : tmrPeek s with _ | u <;>
    rw [hn, ht] at h
  · exact absurd (h : (none : Option (Nat × ActorId)) = some (t, a)) (by simp)
  · have h2 : (if u < usizeMax then some (u, ActorId.timer) else none) =
        some (t, a) := h
    by_cases hu : u < usizeMax
    · rw [if_pos hu] at h2
      simp only [Option.some.injEq, Prod.mk.injEq] at h2
      obtain ⟨rfl, rfl⟩ := h2
      refine ⟨Or.inr ⟨rfl, rfl⟩, by simp, ?_⟩
      intro w hw
      simp only [Option.some.injEq] at hw
      omega
    · rw [if_neg hu] at h2
      exact absurd h2 (by simp)
  · have h2 : (if v < usizeMax then some (v, ActorId.network) else none) =
        some (t, a) := h
    by_cases hv : v < usizeMax
    · rw [if_pos hv] at h2
      simp only [Option.some.injEq, Prod.mk.injEq] at h2
      obtain ⟨rfl, rfl⟩ := h2
      refine ⟨Or.inl ⟨rfl, rfl⟩, ?_, by simp⟩
      intro w hw
      simp only [Option.some.injEq] at hw
      omega
    · rw [if_neg hv] at h2
      exact absurd h2 (by simp)
  · have h2 : (if v < usizeMax then
        (if u < v then some (u, ActorId.timer) else some (v, ActorId.network))
        else if u < usizeMax then some (u, ActorId.timer) else none) =
        some (t, a) := h
    by_cases hv : v < usizeMax
    · rw [if_pos hv] at h2
      by_cases hu : u < v
      · rw [if_pos hu] at h2
        simp only [Option.some.injEq, Prod.mk.injEq] at h2
        obtain ⟨rfl, rfl⟩ := h2
        refine ⟨Or.inr ⟨rfl, rfl⟩, ?_, ?_⟩ <;>
          (intro w hw; simp only [Option.some.injEq] at hw; omega)
      · rw [if_neg hu] at h2
        simp only [Option.some.injEq, Prod.mk.injEq] at h2
        obtain ⟨rfl, rfl⟩ := h2
        refine ⟨Or.inl ⟨rfl, rfl⟩, ?_, ?_⟩ <;>
          (intro w hw; simp only [Option.some.injEq] at hw; omega)
    · rw [if_neg hv] at h2
      by_cases hu : u < usizeMax
      · rw [if_pos hu] at h2
        simp only [Option.some.injEq, Prod.mk.injEq] at h2
        obtain ⟨rfl, rfl⟩ := h2
        refine ⟨Or.inr ⟨rfl, rfl⟩, ?_, ?_⟩ <;>
          (intro w hw; simp only [Option.some.injEq] at hw; omega)
      · rw [if_neg hu] at h2
        exact absurd h2 (by simp)

/-! ## The clock is untouched outside `fast_forward_clock` -/

theorem dispatch_clock (script : Script) (s : SimState) (pid : Nat) :
    (dispatch script s pid).clock = s.clock :=
  congrArg (fun x => x.1) (dispatch_coreView script s pid)

theorem submitSingleMessage_clock (script : Script) (s : SimState)
    (source : Nat) (d : Dest) (size tag : Nat) :
    (submitSingleMessage script s source d size tag).clock = s.clock := by
  unfold submitSingleMessage
  generalize submitTargets s d = ts
  induction ts generalizing s with
  | nil => rfl
  | cons x xs ih =>
    simp only [List.foldl_cons]
    exact ih _

theorem drainStep_clock (script : Script) (s : SimState) :
    (drainStep script s).clock = s.clock := by
  have h1 : ∀ (tmrs : List PendingTimer) (x : SimState),
      (tmrs.foldl submitTimer x).clock = x.clock := by
    intro tmrs
    induction tmrs with
    | nil => exact fun x => rfl
    | cons e es ih =>
      intro x
      simp only [List.foldl_cons]
      exact ih _
  have h2 : ∀ (msgs : List PendingSend) (x : SimState),
      (msgs.foldl (fun s e =>
        submitSingleMessage script s e.source e.dst e.size e.tag) x).clock =
        x.clock := by
    intro msgs
    induction msgs with
    | nil => exact fun x => rfl
    | cons e es ih =>
      intro x
      simp only [List.foldl_cons]
      rw [ih _, submitSingleMessage_clock]
  unfold drainStep
  rw [h1, h2]

theorem networkStep_clock (script : Script) (s : SimState) :
    (networkStep script s).clock = s.clock := by
  unfold networkStep
  split
  · rfl
  · rw [dispatch_clock]

theorem timerStep_clock (script : Script) (s : SimState) :
    (timerStep script s).clock = s.clock := by
  unfold timerStep
  split
  · rfl
  · rw [dispatch_clock]

/-! ## Invariant preservation and clock monotonicity of the scheduler -/

theorem clock_shift_inv (s : SimState) (t : Nat) (h : Inv s)
    (hnet : ∀ v, netPeek s = some v → t ≤ v)
    (htmr : ∀ v, tmrPeek s = some v → t ≤ v) :
    Inv { s with clock := t } := by
  refine { heapG := h.heapG, heapB := h.heapB, heapT := h.heapT,
           clockG := ?_, clockB := ?_, clockT := ?_,
           subG := h.subG, subB := h.subB, band := h.band,
           deliv := h.deliv }
  · intro m hm
    rcases hnp : netPeek s with _ | v
    · obtain ⟨hge, _⟩ := peekClosest_none s.bq hnp
      rw [hge] at hm
      simp at hm
    · have hb := peekClosest_lb s.bq h.heapG h.heapB v hnp
      exact Nat.le_trans (hnet v hnp) (hb.1 m hm)
  · intro m hm
    rcases hnp : netPeek s with _ | v
    · obtain ⟨_, hbe⟩ := peekClosest_none s.bq hnp
      rw [hbe] at hm
      simp at hm
    · have hb := peekClosest_lb s.bq h.heapG h.heapB v hnp
      exact Nat.le_trans (hnet v hnp) (hb.2 m hm)
  · intro e he
    rcases htp : tmrPeek s with _ | u
    · rw [tmrPeek_none s htp] at he
      simp at he
    · have hb := tmrPeek_some s u h.heapT htp
      exact Nat.le_trans (htmr u htp) (hb.2 e he)

theorem simStep_inv (script : Script) (s : SimState) (h : Inv s) :
    Inv (simStep script s) := by
  unfold simStep
  split
  next =>
    exact { heapG := h.heapG, heapB := h.heapB, heapT := h.heapT,
            clockG := h.clockG, clockB := h.clockB, clockT := h.clockT,
            subG := h.subG, subB := h.subB, band := h.band,
            deliv := h.deliv }
  next fa hfa =>
    have hfacts := simPeekClosest_facts s fa.1 fa.2 (by rw [hfa])
    have hmid : Inv { s with clock := fa.1 } :=
      clock_shift_inv s fa.1 h hfacts.2.1 hfacts.2.2
    refine drainStep_inv script _ ?_
    split
    next ha =>
      refine networkStep_inv script _ hmid ?_
      show s.bq.peekClosest = some fa.1
      rcases hfacts.1 with ⟨_, hnp⟩ | ⟨hat, _⟩
      · exact hnp
      · rw [ha] at hat
        exact absurd hat (by simp)
    next ha => exact timerStep_inv script _ hmid

theorem simStep_clock_mono (script : Script) (s : SimState) (h : Inv s) :
    s.clock ≤ (simStep script s).clock := by
  unfold simStep
  split
  next => exact Nat.le_refl _
  next fa hfa =>
    have hfacts := simPeekClosest_facts s fa.1 fa.2 (by rw [hfa])
    have hle : s.clock ≤ fa.1 := by
      rcases hfacts.1 with ⟨_, hnp⟩ | ⟨_, htp⟩
      · rcases peekClosest_mem s.bq fa.1 hnp with ⟨m, hm, harr⟩ | ⟨m, hm, harr⟩
        · rw [harr]
          exact h.clockG m hm
        · rw [harr]
          exact h.clockB m hm
      · obtain ⟨⟨e, he, harr⟩, _⟩ := tmrPeek_some s fa.1 h.heapT htp
        rw [harr]
        exact h.clockT e he
    rw [drainStep_clock]
    split
    next => rw [networkStep_clock]; exact hle
    next => rw [timerStep_clock]; exact hle

theorem simRun_inv (script : Script) (fuel : Nat) (s : SimState)
    (h : Inv s) : Inv (simRun script fuel s) := by
  induction fuel generalizing s with
  | zero => exact h
  | succ n ih =>
    unfold simRun
    split
    · exact h
    · split
      · exact ih _ (simStep_inv script s h)
      · exact h

theorem simRun_clock_mono (script : Script) (fuel : Nat) (s : SimState)
    (h : Inv s) : s.clock ≤ (simRun script fuel s).clock := by
  induction fuel generalizing s with
  | zero => exact Nat.le_refl _
  | succ n ih =>
    unfold simRun
    split
    · exact Nat.le_refl _
    · split
      · exact Nat.le_trans (simStep_clock_mono script s h)
          (ih _ (simStep_inv script s h))
      · exact Nat.le_refl _

theorem simRun_halted (script : Script) (fuel : Nat) (s : SimState)
    (h : s.halted = true) : simRun script fuel s = s := by
  cases fuel with
  | zero => rfl
  | succ n =>
    unfold simRun
    rw [if_pos h]

theorem simRun_budget (script : Script) (fuel : Nat) (s : SimState)
    (h : ¬s.clock < s.timeBudget) : simRun script fuel s = s := by
  cases fuel with
  | zero => rfl
  | succ n =>
    unfold simRun
    rw [if_neg h]
    split <;> rfl

theorem simRun_succ (script : Script) (n : Nat) (s : SimState) :
    simRun script (n + 1) s =
      if s.halted = true then s
      else if s.clock < s.timeBudget then simRun script n (simStep script s)
      else s := rfl

theorem simRun_add (script : Script) (a b : Nat) (s : SimState) :
    simRun script (a + b) s = simRun script b (simRun script a s) := by
  induction a generalizing s with
  | zero =>
    rw [Nat.zero_add]
    rfl
  | succ n ih =>
    have hshift : n + 1 + b = (n + b) + 1 := by omega
    rw [hshift, simRun_succ, simRun_succ]
    by_cases hh : s.halted = true
    · rw [if_pos hh, if_pos hh, simRun_halted script b s hh]
    · rw [if_neg hh, if_neg hh]
      by_cases hb : s.clock < s.timeBudget
      · rw [if_pos hb, if_pos hb, ih]
      · rw [if_neg hb, if_neg hb, simRun_budget script b s hb]

theorem foldDispatch_inv (script : Script) :
    ∀ (ks : List Nat) (s : SimState), Inv s →
    Inv (ks.foldl (dispatch script) s) := by
  intro ks
  induction ks with
  | nil => exact fun s h => h
  | cons k ks ih =>
    intro s h
    simp only [List.foldl_cons]
    exact ih _ (dispatch_inv script s k h)

theorem simStart_inv (script : Script) (s : SimState) (h : Inv s) :
    Inv (simStart script s) := by
  unfold simStart
  exact drainStep_inv _ _ (drainStep_inv _ _ (foldDispatch_inv script _ _ h))

theorem initState_inv (bt : BandwidthDescription) (topo : Topology)
    (n budget : Nat) (hv : validBandwidth bt) :
    Inv (initState bt topo n budget) := by
  refine { heapG := ?_, heapB := ?_, heapT := ?_, clockG := ?_,
           clockB := ?_, clockT := ?_, subG := ?_, subB := ?_,
           band := ?_, deliv := ?_ } <;>
    first
      | (intro j hj0 hjlen; simp [initState, BandwidthQueue.new] at hjlen)
      | (intro m hm; simp [initState, BandwidthQueue.new] at hm)
      | skip
  show 1 ≤ (BandwidthQueue.new bt n).bandwidth
  cases bt with
  | Unbounded =>
    show 1 ≤ usizeMax
    unfold usizeMax
    norm_num
  | Bounded b => exact hv

/-! ## The unique-id ghost log -/

theorem applyApiCall_tsoInv (s : SimState) (c : ApiCall) (h : TsoInv s) :
    TsoInv (applyApiCall s c) := by
  cases c with
  | sendTo a b d => exact h
  | broadcastWithinPool a b d => exact h
  | scheduleTimerAfter after =>
    show s.tidLog ++ [s.tso] = List.range (s.tso + 1)
    rw [List.range_succ, h]

theorem foldCalls_tsoInv :
    ∀ (calls : List ApiCall) (s : SimState), TsoInv s →
    TsoInv (calls.foldl applyApiCall s) := by
  intro calls
  induction calls with
  | nil => exact fun s h => h
  | cons c cs ih =>
    intro s h
    simp only [List.foldl_cons]
    exact ih _ (applyApiCall_tsoInv s c h)

theorem dispatch_tsoInv (script : Script) (s : SimState) (pid : Nat)
    (h : TsoInv s) : TsoInv (dispatch script s pid) :=
  foldCalls_tsoInv _ _ h

theorem tsoInv_of_eqs {s t : SimState} (h1 : s.tso = t.tso)
    (h2 : s.tidLog = t.tidLog) (ht : TsoInv t) : TsoInv s := by
  show s.tidLog = List.range s.tso
  rw [h1, h2]
  exact ht

theorem submitSingleMessage_tso (script : Script) (s : SimState)
    (source : Nat) (d : Dest) (size tag : Nat) :
    (submitSingleMessage script s source d size tag).tso = s.tso ∧
    (submitSingleMessage script s source d size tag).tidLog = s.tidLog := by
  unfold submitSingleMessage
  generalize submitTargets s d = ts
  induction ts generalizing s with
  | nil => exact ⟨rfl, rfl⟩
  | cons x xs ih =>
    simp only [List.foldl_cons]
    exact ih _

theorem drainStep_tsoInv (script : Script) (s : SimState) (h : TsoInv s) :
    TsoInv (drainStep script s) := by
  have h1 : ∀ (tmrs : List PendingTimer) (x : SimState), TsoInv x →
      TsoInv (tmrs.foldl submitTimer x) := by
    intro tmrs
    induction tmrs with
    | nil => exact fun x hx => hx
    | cons e es ih =>
      intro x hx
      simp only [List.foldl_cons]
      exact ih _ hx
  have h2 : ∀ (msgs : List PendingSend) (x : SimState), TsoInv x →
      TsoInv (msgs.foldl (fun s e =>
        submitSingleMessage script s e.source e.dst e.size e.tag) x) := by
    intro msgs
    induction msgs with
    | nil => exact fun x hx => hx
    | cons e es ih =>
      intro x hx
      simp only [List.foldl_cons]
      refine ih _ ?_
      obtain ⟨ha, hb⟩ := submitSingleMessage_tso script x e.source e.dst
        e.size e.tag
      exact tsoInv_of_eqs ha hb hx
  unfold drainStep
  exact h1 _ _ (h2 _ _ h)

theorem networkStep_tsoInv (script : Script) (s : SimState)
    (h : TsoInv s) : TsoInv (networkStep script s) := by
  unfold networkStep
  split
  · exact h
  · exact dispatch_tsoInv script _ _ h

theorem timerStep_tsoInv (script : Script) (s : SimState)
    (h : TsoInv s) : TsoInv (timerStep script s) := by
  unfold timerStep
  split
  · exact h
  · exact dispatch_tsoInv script _ _ h

theorem simStep_tsoInv (script : Script) (s : SimState) (h : TsoInv s) :
    TsoInv (simStep script s) := by
  unfold simStep
  split
  · exact h
  next fa hfa =>
    refine drainStep_tsoInv script _ ?_
    split
    · exact networkStep_tsoInv script _ h
    · exact timerStep_tsoInv script _ h

theorem simRun_tsoInv (script : Script) (fuel : Nat) (s : SimState)
    (h : TsoInv s) : TsoInv (simRun script fuel s) := by
  induction fuel generalizing s with
  | zero => exact h
  | succ n ih =>
    unfold simRun
    split
    · exact h
    · split
      · exact ih _ (simStep_tsoInv script s h)
      · exact h

theorem simStart_tsoInv (script : Script) (s : SimState) (h : TsoInv s) :
    TsoInv (simStart script s) := by
  have hfold : ∀ (ks : List Nat) (x : SimState), TsoInv x →
      TsoInv (ks.foldl (dispatch script) x) := by
    intro ks
    induction ks with
    | nil => exact fun x hx => hx
    | cons k ks ih =>
      intro x hx
      simp only [List.foldl_cons]
      exact ih _ (dispatch_tsoInv script x k hx)
  unfold simStart
  exact drainStep_tsoInv _ _ (drainStep_tsoInv _ _ (hfold _ _ h))

theorem simulate_tsoInv (script : Script) (bt : BandwidthDescription)
    (topo : Topology) (n budget fuel : Nat) :
    TsoInv (simulate script bt topo n budget fuel) := by
  unfold simulate
  refine simRun_tsoInv script fuel _ (simStart_tsoInv script _ ?_)
  show ([] : List Nat) = List.range 0
  rfl

/-! ## The push log of a submit -/

theorem submitSingleMessage_pushLog (script : Script) (s : SimState)
    (source : Nat) (d : Dest) (size tag : Nat) :
    (submitSingleMessage script s source d size tag).pushLog =
      s.pushLog ++ (submitTargets s d).map
        (fun t => routedFor s.clock source t size tag) := by
  unfold submitSingleMessage
  generalize submitTargets s d = ts
  induction ts generalizing s with
  | nil => simp
  | cons x xs ih =>
    simp only [List.foldl_cons, List.map_cons]
    rw [ih]
    simp

/-! ## The claims -/

/-- C1: the bounded-bandwidth re-stamp.  The spec asserts the arrival
time is re-stamped to exactly `⌈new_total / B⌉` and that this is
`> now()` (so in particular `≥ now()`), but the source computes
`new_total / self.bandwidth` with flooring integer division.  At
`B = 2`, `now() = 1`, `bytes_passed = 0` and a message of virtual size
3, the guard `new_total > now()·B` fires (3 > 2), the code re-stamps
to `3 / 2 = 1` — equal to `now()`, not above it — while
`⌈3 / 2⌉ = 2`.  This evaluates the source's
`move_message_from_latency_queue_to_buffers` at that input. -/
theorem claim_C1 :
    (bqRestamp.moveMessageFromLatencyQueueToBuffers 1).mergedFifoBuffers =
      [⟨1, ⟨2, 1, 3, 0, 0⟩⟩] ∧
    1 * bqRestamp.bandwidth < 0 + 3 ∧
    (0 + 3 + bqRestamp.bandwidth - 1) / bqRestamp.bandwidth = 2 ∧
    ¬ (1 : Nat) = 2 := by
  decide

/-- C2: the per-destination rate invariant `delivered bytes by t ≤ t·B`
fails on the code.  In the concrete bounded run `runBounded`
(`B = 2`, one self-send of virtual size 3 at start), the message is
re-stamped with flooring division to time 1 and delivered there, so 3
bytes reach destination 1 by time 1 although `1 · 2 = 2`. -/
theorem claim_C2 :
    deliveredBytesBy runBounded 1 1 = 3 ∧ 1 * 2 < 3 := by
  decide

/-- C3, counterexample: four messages with equal arrival time 5 are
pushed into the empty latency queue in tag order 1, 2, 3, 4, and pop
returns them in order 1, 3, 2, 4: the message pushed third is popped
before the message pushed second, so pop order among equal arrival
times is not insertion order. -/
theorem claim_C3_counterexample :
    (∀ m ∈ fourEqualPushes, m.arrival = 5) ∧
    popTags 4 fourEqualPushes = [1, 3, 2, 4] := by
  decide

/-- C3, amended: the pop order among equal arrival times is the
deterministic order induced by the binary heap's array layout, which
in general differs from insertion order (see the counterexample); for
two messages of equal arrival time pushed into an *empty* queue the
insertion order is preserved: the first pushed is popped first. -/
theorem claim_C3 (m1 m2 : Msg) (t1 t2 z1 z2 : Nat)
    (heq : t1 + z1 = t2 + z2) :
    (latPop (latPush (latPush [] ⟨t1, m1⟩ z1) ⟨t2, m2⟩ z2)).1 =
      some ⟨t1 + z1, m1⟩ := by
  have h1 : latPush [] (⟨t1, m1⟩ : RoutedMsg) z1 = [⟨t1 + z1, m1⟩] := by
    unfold latPush heapPush siftUp
    simp [siftUpAux]
  have hle : rmLe (⟨t2 + z2, m2⟩ : RoutedMsg) ⟨t1 + z1, m1⟩ = true := by
    simp only [rmLe, decide_eq_true_eq]
    omega
  have h2 : latPush [(⟨t1 + z1, m1⟩ : RoutedMsg)] ⟨t2, m2⟩ z2 =
      [⟨t1 + z1, m1⟩, ⟨t2 + z2, m2⟩] := by
    unfold latPush heapPush siftUp
    simp [siftUpAux, parentIdx, hle]
  rw [h1, h2]
  unfold latPop heapPop
  simp

theorem claim_C3_witness :
    (5 : Nat) + 0 = 5 + 0 ∧
    (latPop (latPush (latPush [] ⟨5, ⟨1, 0, 0, 1, 0⟩⟩ 0)
      ⟨5, ⟨2, 0, 0, 2, 0⟩⟩ 0)).1 = some ⟨5 + 0, ⟨1, 0, 0, 1, 0⟩⟩ :=
  ⟨rfl, claim_C3 ⟨1, 0, 0, 1, 0⟩ ⟨2, 0, 0, 2, 0⟩ 5 5 0 0 rfl⟩

/-- C5, counterexample: `global_unique_id` is
`TSO.replace(TSO.get() + 1)` and `Cell::replace` returns the previous
value, so the first call of a run returns 0.  In the concrete run
`runLateTimer`, the single `schedule_timer_after` issued at start
returned timer id 0 — not a nonzero value as the claim asserts. -/
theorem claim_C5_counterexample :
    runLateTimer.tidLog = [0] ∧ (0 : Nat) ∈ runLateTimer.tidLog := by
  decide

/-- C5, amended: within a run the k-th call to the unique-id source
returns k − 1, so all returned values — and hence all ids returned by
`schedule_timer_after` — are pairwise distinct; but the first value of
a run is 0, not nonzero.  `tidLog` is the ghost log of the ids
returned by `schedule_timer_after`, in call order. -/
theorem claim_C5 (script : Script) (bt : BandwidthDescription)
    (topo : Topology) (n budget fuel : Nat) :
    (simulate script bt topo n budget fuel).tidLog =
      List.range (simulate script bt topo n budget fuel).tidLog.length ∧
    (simulate script bt topo n budget fuel).tidLog.Nodup := by
  have h : TsoInv (simulate script bt topo n budget fuel) :=
    simulate_tsoInv script bt topo n budget fuel
  unfold TsoInv at h
  constructor
  · rw [h, List.length_range]
  · rw [h]
    exact List.nodup_range _

/-- C10: the budget check happens only before a step, so a run can
dispatch its final event strictly after the time budget.  In
`runLateTimer` the budget is 5 and the only event is a timer at 10:
the scheduler fast-forwards the clock to 10 and fires the timer there,
ending with the clock strictly above the budget. -/
theorem claim_C10 :
    runLateTimer.timeBudget = 5 ∧ runLateTimer.clock = 10 ∧
    runLateTimer.fires = [(10, 1, 0)] ∧ runLateTimer.timeBudget <
      runLateTimer.clock := by
  decide

/-- C4: every routed message is delivered at a time `t_d` with
`t_d ≥ t_submit + 1`, where `t_submit` is the `now()` at which the
sender's effect was handed to the network (the ghost `submitTime`
field, equal to `now()` inside the sending callback since the drain
runs before the clock moves again).  Holds for every handler script,
every seed (sample stream), every topology and any fuel, provided the
configured bandwidth is valid (`Bounded(0)` would divide by zero in
the source). -/
theorem claim_C4 (script : Script) (bt : BandwidthDescription)
    (topo : Topology) (n budget fuel : Nat) (hv : validBandwidth bt) :
    ∀ e ∈ (simulate script bt topo n budget fuel).delivered,
      e.2.msg.submitTime + 1 ≤ e.1 := by
  have hinv : Inv (simulate script bt topo n budget fuel) :=
    simRun_inv script fuel _
      (simStart_inv script _ (initState_inv bt topo n budget hv))
  exact hinv.deliv

theorem claim_C4_witness :
    validBandwidth (BandwidthDescription.Bounded 2) ∧
    ∀ e ∈ (simulate scriptSelfSend (BandwidthDescription.Bounded 2)
      topoOne 1 10 10).delivered, e.2.msg.submitTime + 1 ≤ e.1 :=
  ⟨(by decide : (1 : Nat) ≤ 2),
   claim_C4 scriptSelfSend (BandwidthDescription.Bounded 2) topoOne 1 10 10
     (by decide : (1 : Nat) ≤ 2)⟩

/-- C6: the virtual clock is monotone nondecreasing across the whole
run: running the scheduler loop for more steps never yields a smaller
`now()` than running it for fewer steps, for every handler script,
seed, topology and budget. -/
theorem claim_C6 (script : Script) (bt : BandwidthDescription)
    (topo : Topology) (n budget : Nat) (hv : validBandwidth bt)
    (f1 f2 : Nat) (hle : f1 ≤ f2) :
    (simulate script bt topo n budget f1).clock ≤
      (simulate script bt topo n budget f2).clock := by
  unfold simulate
  obtain ⟨d, rfl⟩ := Nat.le.dest hle
  rw [simRun_add]
  exact simRun_clock_mono script d _
    (simRun_inv script f1 _
      (simStart_inv script _ (initState_inv bt topo n budget hv)))

theorem claim_C6_witness :
    validBandwidth BandwidthDescription.Unbounded ∧ 1 ≤ 3 ∧
    (simulate scriptLateTimer BandwidthDescription.Unbounded topoOne 1 5
      1).clock ≤
    (simulate scriptLateTimer BandwidthDescription.Unbounded topoOne 1 5
      3).clock :=
  ⟨trivial, by decide,
   claim_C6 scriptLateTimer BandwidthDescription.Unbounded topoOne 1 5
     trivial 1 3 (by decide)⟩

/-- C7: when both actors' `peek_next_time` are empty while `now()` is
below the time budget, `Simulation::step` reports the deadlock and
terminates the process (`exit(1)`, modelled by the terminal `halted`
flag): the step changes nothing but that flag — in particular it
dispatches no handler — and the loop never runs another step
afterwards, whatever fuel remains. -/
theorem claim_C7 (script : Script) (s : SimState)
    (hnet : netPeek s = none) (htmr : tmrPeek s = none)
    (hb : s.clock < s.timeBudget) :
    simStep script s = { s with halted := true } ∧
    ∀ fuel, simRun script fuel { s with halted := true } =
      { s with halted := true } := by
  have hpk : simPeekClosest s = none := by
    rw [simPeekClosest_eq, hnet, htmr]
  constructor
  · unfold simStep
    rw [hpk]
  · intro fuel
    exact simRun_halted script fuel _ rfl

theorem claim_C7_witness :
    netPeek (initState BandwidthDescription.Unbounded topoOne 1 5) = none ∧
    tmrPeek (initState BandwidthDescription.Unbounded topoOne 1 5) = none ∧
    (initState BandwidthDescription.Unbounded topoOne 1 5).clock <
      (initState BandwidthDescription.Unbounded topoOne 1 5).timeBudget ∧
    (simStep scriptSelfSend (initState BandwidthDescription.Unbounded
        topoOne 1 5) =
      { initState BandwidthDescription.Unbounded topoOne 1 5 with
          halted := true } ∧
    ∀ fuel, simRun scriptSelfSend fuel
        { initState BandwidthDescription.Unbounded topoOne 1 5 with
            halted := true } =
      { initState BandwidthDescription.Unbounded topoOne 1 5 with
          halted := true }) :=
  ⟨by decide, by decide, by decide,
   claim_C7 scriptSelfSend _ (by decide) (by decide) (by decide)⟩

/-- C8: a `broadcast_within_pool(P, m)` issued during one dispatch
produces, at the following drain, exactly `|P|` routed messages pushed
into the bandwidth queue — one per participant of P, in the pool's
listing order, each with base arrival time `now() + 1` and all
sharing the payload (same tag and size) — recorded by the ghost
`pushLog` in push order. -/
theorem claim_C8 (script : Script) (s : SimState) (pid sz tg : Nat)
    (p : String) (L : List Nat)
    (hreact : script.react s.dispatchCount =
      [ApiCall.broadcastWithinPool p sz tg])
    (hpool : s.topology.listPool p = L)
    (hmsgs : s.access.scheduledMessages = [])
    (htmrs : s.access.scheduledTimers = []) :
    (drainStep script (dispatch script s pid)).pushLog =
      s.pushLog ++ L.map (fun tgt => routedFor s.clock pid tgt sz tg) ∧
    ((drainStep script (dispatch script s pid)).pushLog.drop
      s.pushLog.length).map (fun m => m.msg.dest) = L ∧
    ∀ m ∈ (drainStep script (dispatch script s pid)).pushLog.drop
      s.pushLog.length, m.msg.tag = tg ∧ m.arrival = s.clock + 1 := by
  have hs1 : dispatch script s pid =
      { s with
          access := ⟨pid, [⟨pid, Dest.BroadcastWithinPool p, sz, tg⟩],
            s.access.scheduledTimers⟩,
          dispatchCount := s.dispatchCount + 1 } := by
    unfold dispatch
    rw [hreact]
    simp only [List.foldl_cons, List.foldl_nil]
    unfold applyApiCall
    rw [hmsgs]
    rfl
  have hmain : (drainStep script (dispatch script s pid)).pushLog =
      s.pushLog ++ L.map (fun tgt => routedFor s.clock pid tgt sz tg) := by
    rw [hs1]
    unfold drainStep
    simp only [htmrs, List.foldl_cons, List.foldl_nil]
    rw [submitSingleMessage_pushLog]
    simp [submitTargets, hpool]
  refine ⟨hmain, ?_, ?_⟩
  · rw [hmain, List.drop_left, List.map_map]
    have : ((fun m => m.msg.dest) ∘
        (fun tgt => routedFor s.clock pid tgt sz tg)) = fun tgt => tgt := by
      funext tgt
      rfl
    rw [this, List.map_id']
  · rw [hmain, List.drop_left]
    intro m hm
    obtain ⟨tgt, _, rfl⟩ := List.mem_map.mp hm
    exact ⟨rfl, rfl⟩

theorem claim_C8_witness :
    scriptBroadcast.react (initState BandwidthDescription.Unbounded
      topoThree 3 3).dispatchCount = [ApiCall.broadcastWithinPool "p" 4 42] ∧
    (initState BandwidthDescription.Unbounded topoThree 3 3).topology.listPool
      "p" = [1, 2, 3] ∧
    (drainStep scriptBroadcast (dispatch scriptBroadcast
      (initState BandwidthDescription.Unbounded topoThree 3 3) 1)).pushLog =
      (initState BandwidthDescription.Unbounded topoThree 3 3).pushLog ++
      ([1, 2, 3].map (fun tgt => routedFor
        (initState BandwidthDescription.Unbounded topoThree 3 3).clock
        1 tgt 4 42)) :=
  ⟨by decide, by decide,
   (claim_C8 scriptBroadcast _ 1 4 42 "p" [1, 2, 3] (by decide) (by decide)
     rfl rfl).1⟩

/-- C9: `Simulation::peek_closest` iterates the actors in construction
order (network first, then timer) and replaces the running minimum
only on a *strictly* smaller head time, so on equal head times the
network actor is chosen; the timer actor is chosen at an instant only
when its head time is strictly below the network's. -/
theorem claim_C9 (s : SimState) (t : Nat) (ht : t < usizeMax)
    (hnet : netPeek s = some t) :
    (tmrPeek s = some t → simPeekClosest s = some (t, ActorId.network)) ∧
    (∀ v a, simPeekClosest s = some (v, a) → a = ActorId.timer → v < t) := by
  constructor
  · intro htm
    rw [simPeekClosest_eq, hnet, htm]
    show (if t < usizeMax then
        (if t < t then some (t, ActorId.timer)
         else some (t, ActorId.network))
        else if t < usizeMax then some (t, ActorId.timer) else none) =
      some (t, ActorId.network)
    rw [if_pos ht, if_neg (show ¬t < t by omega)]
  · intro v a hva hat
    rw [simPeekClosest_eq, hnet] at hva
    rcases htp : tmrPeek s with _ | u
    · rw [htp] at hva
      have hva2 : (if t < usizeMax then some (t, ActorId.network)
          else none) = some (v, a) := hva
      rw [if_pos ht] at hva2
      simp only [Option.some.injEq, Prod.mk.injEq] at hva2
      rw [← hva2.2] at hat
      exact absurd hat (by simp)
    · rw [htp] at hva
      have hva2 : (if t < usizeMax then
          (if u < t then some (u, ActorId.timer)
           else some (t, ActorId.network))
          else if u < usizeMax then some (u, ActorId.timer) else none) =
        some (v, a) := hva
      rw [if_pos ht] at hva2
      by_cases hu : u < t
      · rw [if_pos hu] at hva2
        simp only [Option.some.injEq, Prod.mk.injEq] at hva2
        omega
      · rw [if_neg hu] at hva2
        simp only [Option.some.injEq, Prod.mk.injEq] at hva2
        rw [← hva2.2] at hat
        exact absurd hat (by simp)

theorem claim_C9_witness :
    (3 : Nat) < usizeMax ∧ netPeek tieState = some 3 ∧
    tmrPeek tieState = some 3 ∧
    simPeekClosest tieState = some (3, ActorId.network) :=
  ⟨by decide, by decide, by decide,
   (claim_C9 tieState 3 (by decide) (by decide)).1 (by decide)⟩

end DScale
